import Mathlib

/-!
Verification of the maia-sdr HDL building blocks (maia-hdl).

This file gives a shallow embedding, in Lean, of several modules of the
maia-hdl Amaranth code base and proves properties of them:

* `Cmult` (cmult.py): the 3-multiplier pipelined complex multiplier.
* `CpwrPeak` (cpwr.py): the complex power / peak detect unit running on a
  3x clock.
* `R2SDF` (fft.py): the radix-2 single-delay-feedback butterfly.
* `IQToFloatingPoint`, `MakeCommonExponent` (floating_point.py) and the
  `SpectrumIntegrator` golden model (spectrum_integrator.py).
* The `SpectrumIntegrator` control path (counters, pingpong, done).
* `Register` and `Registers` (register.py).
* `PackFifoTwice` (packer.py).
* `DmaStreamWrite` (dma.py).

Signals of a declared width are modelled as integers together with an
explicit two's-complement wrap (`wrapSigned`) or an unsigned wrap
(`wrapUnsigned`) at every registered assignment, mirroring Amaranth's
truncation semantics on assignment.  The arithmetic right shift `>>` of
the hardware description is integer floor division by a power of two.
-/

/-- Arithmetic right shift by `n` bits: floor division by `2 ^ n`.
This is the meaning of `>>` on signed Amaranth values. -/
def ashr (x : ℤ) (n : ℕ) : ℤ := x / 2 ^ n

/-- Two's-complement wrap of an integer to a signed value of width `w`,
as performed by an assignment to an Amaranth `Signal(signed(w))`. -/
def wrapSigned (w : ℕ) (x : ℤ) : ℤ := (x + 2 ^ (w - 1)) % 2 ^ w - 2 ^ (w - 1)

/-- Wrap of an integer to an unsigned value of width `w`, as performed by
an assignment to an Amaranth `Signal(w)`. -/
def wrapUnsigned (w : ℕ) (x : ℤ) : ℤ := x % 2 ^ w

theorem wrapSigned_eq_self {w : ℕ} {x : ℤ} (hw : 1 ≤ w)
    (hlo : -(2 ^ (w - 1)) ≤ x) (hhi : x < 2 ^ (w - 1)) :
    wrapSigned w x = x := by
  unfold wrapSigned
  have hww : w - 1 + 1 = w := by omega
  have h2 : (2 : ℤ) ^ w = 2 ^ (w - 1) * 2 := by
    rw [← pow_succ, hww]
  have h0 : 0 ≤ x + 2 ^ (w - 1) := by omega
  have h1 : x + 2 ^ (w - 1) < 2 ^ w := by omega
  rw [Int.emod_eq_of_lt h0 h1]; ring

theorem wrapSigned_lt (w : ℕ) (x : ℤ) : wrapSigned w x < 2 ^ (w - 1) := by
  unfold wrapSigned
  rcases Nat.eq_zero_or_pos w with hw | hw
  · subst hw; simp [Int.emod_one]
  · have hww : w - 1 + 1 = w := by omega
    have h2 : (2 : ℤ) ^ w = 2 ^ (w - 1) * 2 := by rw [← pow_succ, hww]
    have := Int.emod_lt_of_pos (x + 2 ^ (w - 1))
      (b := 2 ^ w) (by positivity)
    omega

theorem le_wrapSigned (w : ℕ) (x : ℤ) : -(2 ^ (w - 1)) ≤ wrapSigned w x := by
  unfold wrapSigned
  have := Int.emod_nonneg (x + 2 ^ (w - 1))
    (b := 2 ^ w) (by positivity)
  omega

/-- The wrap only depends on the value modulo `2 ^ w`. -/
theorem wrapSigned_emod (w W : ℕ) (x : ℤ) (h : w ≤ W) :
    wrapSigned w (x % 2 ^ W) = wrapSigned w x := by
  unfold wrapSigned
  have hdvd : (2 : ℤ) ^ w ∣ 2 ^ W := pow_dvd_pow 2 h
  have hmm : x % 2 ^ W % 2 ^ w = x % 2 ^ w := Int.emod_emod_of_dvd x hdvd
  have : (x % 2 ^ W + 2 ^ (w - 1)) % 2 ^ w
      = (x + 2 ^ (w - 1)) % 2 ^ w := by
    rw [Int.add_emod, hmm, ← Int.add_emod]
  rw [this]

/-- Helper: a value whose magnitude is below `2 ^ j` survives the wrap to
any width of at least `j + 1` bits. -/
theorem wrapSigned_eq_of_abs_lt {w j : ℕ} {x : ℤ}
    (hj : j + 1 ≤ w) (hx : |x| < 2 ^ j) : wrapSigned w x = x := by
  have h1 : (2 : ℤ) ^ j ≤ 2 ^ (w - 1) :=
    pow_le_pow_right₀ (by norm_num) (by omega)
  rw [abs_lt] at hx
  exact wrapSigned_eq_self (by omega) (by omega) (by omega)

theorem abs_mul_lt_of_lt_le {a b A B : ℤ}
    (ha : |a| < A) (hb : |b| ≤ B) (hB : 0 < B) : |a * b| < A * B := by
  rw [abs_mul]
  calc |a| * |b| ≤ |a| * B := mul_le_mul_of_nonneg_left hb (abs_nonneg a)
    _ < A * B := mul_lt_mul_of_pos_right ha hB

theorem abs_mul_le_of_le_le {a b A B : ℤ}
    (ha : |a| ≤ A) (hb : |b| ≤ B) : |a * b| ≤ A * B := by
  rw [abs_mul]
  calc |a| * |b| ≤ |a| * B := mul_le_mul_of_nonneg_left hb (abs_nonneg a)
    _ ≤ A * B := mul_le_mul_of_nonneg_right ha (le_trans (abs_nonneg b) hb)

namespace Cmult

/-- Pipeline registers of the `Cmult` module (cmult.py, class `Cmult`).
Every field is one `Signal` of the Amaranth design; the delay-line lists
`re_a_q`, `im_a_q`, `re_b_q`, `im_b_q` of the source are flattened into
numbered fields (`re_a_q1` is `re_a_q[0]` of the source, and so on). -/
structure State where
  re_a_q1 : ℤ
  re_a_q2 : ℤ
  re_a_q3 : ℤ
  re_a_q4 : ℤ
  im_a_q1 : ℤ
  im_a_q2 : ℤ
  im_a_q3 : ℤ
  im_a_q4 : ℤ
  re_b_q1 : ℤ
  re_b_q2 : ℤ
  re_b_q3 : ℤ
  im_b_q1 : ℤ
  im_b_q2 : ℤ
  im_b_q3 : ℤ
  add_common : ℤ
  mult0 : ℤ
  common : ℤ
  common_q_re : ℤ
  common_q_im : ℤ
  add_re : ℤ
  add_im : ℤ
  mult_re : ℤ
  mult_im : ℤ
  re_prod : ℤ
  im_prod : ℤ

/-- Input operands presented during one clock cycle. -/
structure Inp where
  re_a : ℤ
  im_a : ℤ
  re_b : ℤ
  im_b : ℤ

/-- One rising clock edge of `Cmult` with `clken` high.  Each register
assignment wraps to the declared signal width. -/
def step (aw bw : ℕ) (s : State) (i : Inp) : State :=
  { re_a_q1 := wrapSigned aw i.re_a
    re_a_q2 := wrapSigned aw s.re_a_q1
    re_a_q3 := wrapSigned aw s.re_a_q2
    re_a_q4 := wrapSigned aw s.re_a_q3
    im_a_q1 := wrapSigned aw i.im_a
    im_a_q2 := wrapSigned aw s.im_a_q1
    im_a_q3 := wrapSigned aw s.im_a_q2
    im_a_q4 := wrapSigned aw s.im_a_q3
    re_b_q1 := wrapSigned bw i.re_b
    re_b_q2 := wrapSigned bw s.re_b_q1
    re_b_q3 := wrapSigned bw s.re_b_q2
    im_b_q1 := wrapSigned bw i.im_b
    im_b_q2 := wrapSigned bw s.im_b_q1
    im_b_q3 := wrapSigned bw s.im_b_q2
    add_common := wrapSigned (aw + 1) (s.re_a_q1 - s.im_a_q1)
    mult0 := wrapSigned (aw + bw + 1) (s.add_common * s.im_b_q2)
    common := wrapSigned (aw + bw + 1) s.mult0
    common_q_re := wrapSigned (aw + bw + 1) s.common
    common_q_im := wrapSigned (aw + bw + 1) s.common
    add_re := wrapSigned (bw + 1) (s.re_b_q3 - s.im_b_q3)
    add_im := wrapSigned (bw + 1) (s.re_b_q3 + s.im_b_q3)
    mult_re := wrapSigned (aw + bw + 1) (s.add_re * s.re_a_q4)
    mult_im := wrapSigned (aw + bw + 1) (s.add_im * s.im_a_q4)
    re_prod := wrapSigned (aw + bw + 1) (s.mult_re + s.common_q_re)
    im_prod := wrapSigned (aw + bw + 1) (s.mult_im + s.common_q_im) }

/-- State after `n` clock edges, starting from `s0`, with `inp k` the
operands presented during cycle `k`. -/
def run (aw bw : ℕ) (s0 : State) (inp : ℕ → Inp) : ℕ → State
  | 0 => s0
  | n + 1 => step aw bw (run aw bw s0 inp n) (inp n)

/-- Combinational output `re_out`: `re_prod >> truncate`, assigned to a
signal of width `aw + bw + 1 - truncate`. -/
def re_out (aw bw truncate : ℕ) (s : State) : ℤ :=
  wrapSigned (aw + bw + 1 - truncate) (ashr s.re_prod truncate)

/-- Combinational output `im_out`. -/
def im_out (aw bw truncate : ℕ) (s : State) : ℤ :=
  wrapSigned (aw + bw + 1 - truncate) (ashr s.im_prod truncate)

/-- All operands presented on the input stream fit their declared widths. -/
def Bounded (aw bw : ℕ) (inp : ℕ → Inp) : Prop :=
  ∀ k, -(2 ^ (aw - 1)) ≤ (inp k).re_a ∧ (inp k).re_a < 2 ^ (aw - 1) ∧
    -(2 ^ (aw - 1)) ≤ (inp k).im_a ∧ (inp k).im_a < 2 ^ (aw - 1) ∧
    -(2 ^ (bw - 1)) ≤ (inp k).re_b ∧ (inp k).re_b < 2 ^ (bw - 1) ∧
    -(2 ^ (bw - 1)) ≤ (inp k).im_b ∧ (inp k).im_b < 2 ^ (bw - 1)

end Cmult


theorem abs_sub_add_le (x y : ℤ) : |x - y| ≤ |x| + |y| := by
  calc |x - y| = |x + -y| := by rw [sub_eq_add_neg]
    _ ≤ |x| + |-y| := abs_add x (-y)
    _ = |x| + |y| := by rw [abs_neg]

/-- `(x ± y) * z` fits comfortably in `p + q + 2` magnitude bits when the
factors fit in `p` and `q` magnitude bits. -/
theorem abs_addsub_mul_lt (p q : ℕ) (d z : ℤ)
    (hd : |d| ≤ 2 ^ p + 2 ^ p) (hz : |z| ≤ 2 ^ q) :
    |d * z| < 2 ^ (p + q + 2) := by
  have h1 : |d| ≤ 2 ^ (p + 1) := by
    have : (2 : ℤ) ^ (p + 1) = 2 ^ p + 2 ^ p := by rw [pow_succ]; ring
    omega
  have h2 : |d * z| ≤ 2 ^ (p + 1) * 2 ^ q := abs_mul_le_of_le_le h1 hz
  have h3 : (2 : ℤ) ^ (p + 1) * 2 ^ q = 2 ^ (p + 1 + q) := (pow_add 2 _ _).symm
  have h4 : (2 : ℤ) ^ (p + 1 + q) < 2 ^ (p + q + 2) :=
    pow_lt_pow_right₀ (by norm_num) (by omega)
  omega

/-- `x * y + z * t` fits comfortably in `p + q + 2` magnitude bits when
each factor fits in `p` respectively `q` magnitude bits. -/
theorem abs_mul_add_mul_lt (p q : ℕ) (x y z t : ℤ)
    (hx : |x| ≤ 2 ^ p) (hy : |y| ≤ 2 ^ q) (hz : |z| ≤ 2 ^ p)
    (ht : |t| ≤ 2 ^ q) :
    |x * y + z * t| < 2 ^ (p + q + 2) := by
  have h1 : |x * y| ≤ 2 ^ p * 2 ^ q := abs_mul_le_of_le_le hx hy
  have h2 : |z * t| ≤ 2 ^ p * 2 ^ q := abs_mul_le_of_le_le hz ht
  have h3 := abs_add (x * y) (z * t)
  have h4 : (2 : ℤ) ^ p * 2 ^ q = 2 ^ (p + q) := (pow_add 2 _ _).symm
  have h5 : (2 : ℤ) ^ (p + q) + 2 ^ (p + q) = 2 ^ (p + q + 1) := by
    rw [pow_succ]; ring
  have h6 : (2 : ℤ) ^ (p + q + 1) < 2 ^ (p + q + 2) :=
    pow_lt_pow_right₀ (by norm_num) (by omega)
  omega

/-- `x ± y` survives a wrap to `p + 2` bits when `x` and `y` fit in
`p + 1` signed bits. -/
theorem wrapSigned_sub_eq (p : ℕ) (x y : ℤ)
    (hx1 : -(2 ^ p) ≤ x) (hx2 : x < 2 ^ p)
    (hy1 : -(2 ^ p) ≤ y) (hy2 : y < 2 ^ p) :
    wrapSigned (p + 2) (x - y) = x - y := by
  refine wrapSigned_eq_self (by omega) ?_ ?_ <;>
    · have h : (2 : ℤ) ^ (p + 2 - 1) = 2 ^ p + 2 ^ p := by
        rw [show p + 2 - 1 = p + 1 from rfl, pow_succ]; ring
      omega

theorem wrapSigned_add_eq (p : ℕ) (x y : ℤ)
    (hx1 : -(2 ^ p) ≤ x) (hx2 : x < 2 ^ p)
    (hy1 : -(2 ^ p) ≤ y) (hy2 : y < 2 ^ p) :
    wrapSigned (p + 2) (x + y) = x + y := by
  refine wrapSigned_eq_self (by omega) ?_ ?_ <;>
    · have h : (2 : ℤ) ^ (p + 2 - 1) = 2 ^ p + 2 ^ p := by
        rw [show p + 2 - 1 = p + 1 from rfl, pow_succ]; ring
      omega

namespace Cmult

set_option maxHeartbeats 2000000 in
/-- C2: sampled 6 cycles after its inputs, `Cmult` outputs the truncated
complex product `re = (re_a*re_b - im_a*im_b) >> T`,
`im = (re_a*im_b + im_a*re_b) >> T`, wrapped to the output width
`aw + bw + 1 - T`, even though the datapath uses the three-multiplier
common-factor form `(re_a - im_a) * im_b`. -/
theorem c2_cmult_bit_exact (aw bw truncate : ℕ) (s0 : State) (inp : ℕ → Inp)
    (haw : 1 ≤ aw) (hbw : 1 ≤ bw) (hb : Bounded aw bw inp) (n : ℕ) :
    re_out aw bw truncate (run aw bw s0 inp (n + 6)) =
      wrapSigned (aw + bw + 1 - truncate)
        (ashr ((inp n).re_a * (inp n).re_b - (inp n).im_a * (inp n).im_b)
          truncate) ∧
    im_out aw bw truncate (run aw bw s0 inp (n + 6)) =
      wrapSigned (aw + bw + 1 - truncate)
        (ashr ((inp n).re_a * (inp n).im_b + (inp n).im_a * (inp n).re_b)
          truncate) := by
  obtain ⟨h1, h2, h3, h4, h5, h6, h7, h8⟩ := hb n
  have hra : |(inp n).re_a| ≤ 2 ^ (aw - 1) := abs_le.mpr ⟨h1, le_of_lt h2⟩
  have hia : |(inp n).im_a| ≤ 2 ^ (aw - 1) := abs_le.mpr ⟨h3, le_of_lt h4⟩
  have hrb : |(inp n).re_b| ≤ 2 ^ (bw - 1) := abs_le.mpr ⟨h5, le_of_lt h6⟩
  have hib : |(inp n).im_b| ≤ 2 ^ (bw - 1) := abs_le.mpr ⟨h7, le_of_lt h8⟩
  have hjm : (aw - 1) + (bw - 1) + 2 + 1 ≤ aw + bw + 1 := by omega
  have hwa : aw - 1 + 2 = aw + 1 := by omega
  have hwb : bw - 1 + 2 = bw + 1 := by omega
  have run_succ : ∀ m, run aw bw s0 inp (m + 1)
      = step aw bw (run aw bw s0 inp m) (inp m) := fun _ => rfl
  -- input delay lines
  have haq1 : (run aw bw s0 inp (n + 1)).re_a_q1 = (inp n).re_a := by
    rw [run_succ]; exact wrapSigned_eq_self haw h1 h2
  have hiq1 : (run aw bw s0 inp (n + 1)).im_a_q1 = (inp n).im_a := by
    rw [run_succ]; exact wrapSigned_eq_self haw h3 h4
  have hrbq1 : (run aw bw s0 inp (n + 1)).re_b_q1 = (inp n).re_b := by
    rw [run_succ]; exact wrapSigned_eq_self hbw h5 h6
  have hibq1 : (run aw bw s0 inp (n + 1)).im_b_q1 = (inp n).im_b := by
    rw [run_succ]; exact wrapSigned_eq_self hbw h7 h8
  have haq2 : (run aw bw s0 inp (n + 2)).re_a_q2 = (inp n).re_a := by
    rw [show n + 2 = (n + 1) + 1 from rfl, run_succ]
    show wrapSigned aw (run aw bw s0 inp (n + 1)).re_a_q1 = _
    rw [haq1]; exact wrapSigned_eq_self haw h1 h2
  have hiq2 : (run aw bw s0 inp (n + 2)).im_a_q2 = (inp n).im_a := by
    rw [show n + 2 = (n + 1) + 1 from rfl, run_succ]
    show wrapSigned aw (run aw bw s0 inp (n + 1)).im_a_q1 = _
    rw [hiq1]; exact wrapSigned_eq_self haw h3 h4
  have hrbq2 : (run aw bw s0 inp (n + 2)).re_b_q2 = (inp n).re_b := by
    rw [show n + 2 = (n + 1) + 1 from rfl, run_succ]
    show wrapSigned bw (run aw bw s0 inp (n + 1)).re_b_q1 = _
    rw [hrbq1]; exact wrapSigned_eq_self hbw h5 h6
  have hibq2 : (run aw bw s0 inp (n + 2)).im_b_q2 = (inp n).im_b := by
    rw [show n + 2 = (n + 1) + 1 from rfl, run_succ]
    show wrapSigned bw (run aw bw s0 inp (n + 1)).im_b_q1 = _
    rw [hibq1]; exact wrapSigned_eq_self hbw h7 h8
  have haq3 : (run aw bw s0 inp (n + 3)).re_a_q3 = (inp n).re_a := by
    rw [show n + 3 = (n + 2) + 1 from rfl, run_succ]
    show wrapSigned aw (run aw bw s0 inp (n + 2)).re_a_q2 = _
    rw [haq2]; exact wrapSigned_eq_self haw h1 h2
  have hiq3 : (run aw bw s0 inp (n + 3)).im_a_q3 = (inp n).im_a := by
    rw [show n + 3 = (n + 2) + 1 from rfl, run_succ]
    show wrapSigned aw (run aw bw s0 inp (n + 2)).im_a_q2 = _
    rw [hiq2]; exact wrapSigned_eq_self haw h3 h4
  have hrbq3 : (run aw bw s0 inp (n + 3)).re_b_q3 = (inp n).re_b := by
    rw [show n + 3 = (n + 2) + 1 from rfl, run_succ]
    show wrapSigned bw (run aw bw s0 inp (n + 2)).re_b_q2 = _
    rw [hrbq2]; exact wrapSigned_eq_self hbw h5 h6
  have hibq3 : (run aw bw s0 inp (n + 3)).im_b_q3 = (inp n).im_b := by
    rw [show n + 3 = (n + 2) + 1 from rfl, run_succ]
    show wrapSigned bw (run aw bw s0 inp (n + 2)).im_b_q2 = _
    rw [hibq2]; exact wrapSigned_eq_self hbw h7 h8
  have haq4 : (run aw bw s0 inp (n + 4)).re_a_q4 = (inp n).re_a := by
    rw [show n + 4 = (n + 3) + 1 from rfl, run_succ]
    show wrapSigned aw (run aw bw s0 inp (n + 3)).re_a_q3 = _
    rw [haq3]; exact wrapSigned_eq_self haw h1 h2
  have hiq4 : (run aw bw s0 inp (n + 4)).im_a_q4 = (inp n).im_a := by
    rw [show n + 4 = (n + 3) + 1 from rfl, run_succ]
    show wrapSigned aw (run aw bw s0 inp (n + 3)).im_a_q3 = _
    rw [hiq3]; exact wrapSigned_eq_self haw h3 h4
  -- common-factor pipeline
  have hm0bound : |((inp n).re_a - (inp n).im_a) * (inp n).im_b|
      < 2 ^ ((aw - 1) + (bw - 1) + 2) :=
    abs_addsub_mul_lt _ _ _ _
      (le_trans (abs_sub_add_le _ _) (by omega)) hib
  have hac : (run aw bw s0 inp (n + 2)).add_common
      = (inp n).re_a - (inp n).im_a := by
    rw [show n + 2 = (n + 1) + 1 from rfl, run_succ]
    show wrapSigned (aw + 1) ((run aw bw s0 inp (n + 1)).re_a_q1
      - (run aw bw s0 inp (n + 1)).im_a_q1) = _
    rw [haq1, hiq1, ← hwa]
    exact wrapSigned_sub_eq _ _ _ h1 h2 h3 h4
  have hm0 : (run aw bw s0 inp (n + 3)).mult0
      = ((inp n).re_a - (inp n).im_a) * (inp n).im_b := by
    rw [show n + 3 = (n + 2) + 1 from rfl, run_succ]
    show wrapSigned (aw + bw + 1) ((run aw bw s0 inp (n + 2)).add_common
      * (run aw bw s0 inp (n + 2)).im_b_q2) = _
    rw [hac, hibq2]
    exact wrapSigned_eq_of_abs_lt hjm hm0bound
  have hcomm : (run aw bw s0 inp (n + 4)).common
      = ((inp n).re_a - (inp n).im_a) * (inp n).im_b := by
    rw [show n + 4 = (n + 3) + 1 from rfl, run_succ]
    show wrapSigned (aw + bw + 1) (run aw bw s0 inp (n + 3)).mult0 = _
    rw [hm0]
    exact wrapSigned_eq_of_abs_lt hjm hm0bound
  have hcqre : (run aw bw s0 inp (n + 5)).common_q_re
      = ((inp n).re_a - (inp n).im_a) * (inp n).im_b := by
    rw [show n + 5 = (n + 4) + 1 from rfl, run_succ]
    show wrapSigned (aw + bw + 1) (run aw bw s0 inp (n + 4)).common = _
    rw [hcomm]
    exact wrapSigned_eq_of_abs_lt hjm hm0bound
  have hcqim : (run aw bw s0 inp (n + 5)).common_q_im
      = ((inp n).re_a - (inp n).im_a) * (inp n).im_b := by
    rw [show n + 5 = (n + 4) + 1 from rfl, run_succ]
    show wrapSigned (aw + bw + 1) (run aw bw s0 inp (n + 4)).common = _
    rw [hcomm]
    exact wrapSigned_eq_of_abs_lt hjm hm0bound
  -- real and imaginary products
  have hadre : (run aw bw s0 inp (n + 4)).add_re
      = (inp n).re_b - (inp n).im_b := by
    rw [show n + 4 = (n + 3) + 1 from rfl, run_succ]
    show wrapSigned (bw + 1) ((run aw bw s0 inp (n + 3)).re_b_q3
      - (run aw bw s0 inp (n + 3)).im_b_q3) = _
    rw [hrbq3, hibq3, ← hwb]
    exact wrapSigned_sub_eq _ _ _ h5 h6 h7 h8
  have hadim : (run aw bw s0 inp (n + 4)).add_im
      = (inp n).re_b + (inp n).im_b := by
    rw [show n + 4 = (n + 3) + 1 from rfl, run_succ]
    show wrapSigned (bw + 1) ((run aw bw s0 inp (n + 3)).re_b_q3
      + (run aw bw s0 inp (n + 3)).im_b_q3) = _
    rw [hrbq3, hibq3, ← hwb]
    exact wrapSigned_add_eq _ _ _ h5 h6 h7 h8
  have hmrebound : |((inp n).re_b - (inp n).im_b) * (inp n).re_a|
      < 2 ^ ((bw - 1) + (aw - 1) + 2) :=
    abs_addsub_mul_lt _ _ _ _
      (le_trans (abs_sub_add_le _ _) (by omega)) hra
  have hjm2 : (bw - 1) + (aw - 1) + 2 + 1 ≤ aw + bw + 1 := by omega
  have hmre : (run aw bw s0 inp (n + 5)).mult_re
      = ((inp n).re_b - (inp n).im_b) * (inp n).re_a := by
    rw [show n + 5 = (n + 4) + 1 from rfl, run_succ]
    show wrapSigned (aw + bw + 1) ((run aw bw s0 inp (n + 4)).add_re
      * (run aw bw s0 inp (n + 4)).re_a_q4) = _
    rw [hadre, haq4]
    exact wrapSigned_eq_of_abs_lt hjm2 hmrebound
  have hmimbound : |((inp n).re_b + (inp n).im_b) * (inp n).im_a|
      < 2 ^ ((bw - 1) + (aw - 1) + 2) :=
    abs_addsub_mul_lt _ _ _ _
      (le_trans (abs_add _ _) (by omega)) hia
  have hmim : (run aw bw s0 inp (n + 5)).mult_im
      = ((inp n).re_b + (inp n).im_b) * (inp n).im_a := by
    rw [show n + 5 = (n + 4) + 1 from rfl, run_succ]
    show wrapSigned (aw + bw + 1) ((run aw bw s0 inp (n + 4)).add_im
      * (run aw bw s0 inp (n + 4)).im_a_q4) = _
    rw [hadim, hiq4]
    exact wrapSigned_eq_of_abs_lt hjm2 hmimbound
  -- final accumulations
  have hrprod : (run aw bw s0 inp (n + 6)).re_prod
      = (inp n).re_a * (inp n).re_b - (inp n).im_a * (inp n).im_b := by
    rw [show n + 6 = (n + 5) + 1 from rfl, run_succ]
    show wrapSigned (aw + bw + 1) ((run aw bw s0 inp (n + 5)).mult_re
      + (run aw bw s0 inp (n + 5)).common_q_re) = _
    rw [hmre, hcqre]
    rw [show ((inp n).re_b - (inp n).im_b) * (inp n).re_a
      + ((inp n).re_a - (inp n).im_a) * (inp n).im_b
      = (inp n).re_a * (inp n).re_b + (-(inp n).im_a) * (inp n).im_b by ring]
    rw [wrapSigned_eq_of_abs_lt hjm
      (abs_mul_add_mul_lt _ _ _ _ _ _ hra hrb (by rwa [abs_neg]) hib)]
    ring
  have hiprod : (run aw bw s0 inp (n + 6)).im_prod
      = (inp n).re_a * (inp n).im_b + (inp n).im_a * (inp n).re_b := by
    rw [show n + 6 = (n + 5) + 1 from rfl, run_succ]
    show wrapSigned (aw + bw + 1) ((run aw bw s0 inp (n + 5)).mult_im
      + (run aw bw s0 inp (n + 5)).common_q_im) = _
    rw [hmim, hcqim]
    rw [show ((inp n).re_b + (inp n).im_b) * (inp n).im_a
      + ((inp n).re_a - (inp n).im_a) * (inp n).im_b
      = (inp n).re_a * (inp n).im_b + (inp n).im_a * (inp n).re_b by ring]
    exact wrapSigned_eq_of_abs_lt hjm
      (abs_mul_add_mul_lt _ _ _ _ _ _ hra hib hia hrb)
  exact ⟨by rw [re_out, hrprod], by rw [im_out, hiprod]⟩

end Cmult

/-- All-zero initial state used for concrete `Cmult` runs. -/
def Cmult.zeroState : Cmult.State :=
  ⟨0, 0, 0, 0, 0, 0, 0, 0, 0, 0, 0, 0, 0, 0, 0, 0, 0, 0, 0, 0, 0, 0, 0, 0, 0⟩

theorem c2_cmult_bit_exact_witness :
    Cmult.Bounded 4 4 (fun _ => ⟨3, -2, 5, 7⟩) ∧
    Cmult.re_out 4 4 1
      (Cmult.run 4 4 Cmult.zeroState (fun _ => ⟨3, -2, 5, 7⟩) (0 + 6)) = 14 ∧
    Cmult.im_out 4 4 1
      (Cmult.run 4 4 Cmult.zeroState (fun _ => ⟨3, -2, 5, 7⟩) (0 + 6)) = 5 := by
  have hB : Cmult.Bounded 4 4 (fun _ => ⟨3, -2, 5, 7⟩) := by
    intro k; norm_num
  refine ⟨hB, ?_, ?_⟩
  · rw [(Cmult.c2_cmult_bit_exact 4 4 1 Cmult.zeroState _
      (by norm_num) (by norm_num) hB 0).1]
    decide
  · rw [(Cmult.c2_cmult_bit_exact 4 4 1 Cmult.zeroState _
      (by norm_num) (by norm_num) hB 0).2]
    decide

namespace CpwrPeak

/-- Registers of the `CpwrPeak` module (cpwr.py, pure-Amaranth design).
The `reg_*` signals live in the 3x clock domain; `out_prev`, `out` and
`is_greater` are registered in the 1x domain. -/
structure State where
  ce_q : Bool
  ce_qq : Bool
  a1 : ℤ
  b1 : ℤ
  a2 : ℤ
  b2 : ℤ
  m : ℤ
  c : ℤ
  p : ℤ
  isg_prev : Bool
  out_prev : ℤ
  out : ℤ
  is_greater : Bool

/-- Inputs of `CpwrPeak`, held constant during one 1x clock cycle. -/
structure Inp where
  re : ℤ
  im : ℤ
  real : ℤ
  peak : Bool

/-- Width of the `reg_p` accumulator: `outw + truncate` of the source,
that is `max (2*w + 2) (rw + rs + 1)`. -/
def pWidth (w rw rs : ℕ) : ℕ := max (2 * w + 2) (rw + rs + 1)

/-- One 3x-clock edge with `clken` high and the given `common_edge`
value.  The three conditional blocks of the source override the base
assignments; a later block wins over an earlier one. -/
def micro (w rw rs : ℕ) (s : State) (i : Inp) (ce : Bool) : State :=
  { ce_q := ce
    ce_qq := s.ce_q
    a1 := if ce then wrapSigned w i.re else wrapSigned w i.im
    b1 := if ce then wrapSigned w i.re else wrapSigned w i.im
    a2 := wrapSigned w s.a1
    b2 := wrapSigned w s.b1
    m := wrapSigned (2 * w + 1) (s.a2 * s.b2)
    c := if s.ce_qq then wrapSigned (rw + rs) (i.real * 2 ^ rs) else s.c
    p := if s.ce_qq then wrapSigned (pWidth w rw rs) (s.c - s.p)
      else if s.ce_q then wrapSigned (pWidth w rw rs) (s.m + s.p)
      else if ce then
        wrapSigned (pWidth w rw rs) (if i.peak then s.m else s.m + s.c)
      else s.p
    isg_prev := if ce then decide (s.p < 0) else s.isg_prev
    out_prev := s.out_prev
    out := s.out
    is_greater := s.is_greater }

/-- One full 1x clock cycle: three 3x edges, with `common_edge` high on
the first one; the 1x-domain registers sample at the shared edge that
ends the cycle (they see the state during the third 3x sub-cycle). -/
def cycleStep (w rw rs truncate : ℕ) (s : State) (i : Inp) : State :=
  let s1 := micro w rw rs s i true
  let s2 := micro w rw rs s1 i false
  let s3 := micro w rw rs s2 i false
  { s3 with
    out_prev := wrapSigned (pWidth w rw rs - truncate) (ashr s2.p truncate)
    out := s2.out_prev
    is_greater := s2.isg_prev }

/-- State after `n` full 1x cycles. -/
def run (w rw rs truncate : ℕ) (s0 : State) (inp : ℕ → Inp) : ℕ → State
  | 0 => s0
  | n + 1 => cycleStep w rw rs truncate (run w rw rs truncate s0 inp n) (inp n)

/-- All-zero reset state. -/
def zeroState : State :=
  ⟨false, false, 0, 0, 0, 0, 0, 0, 0, false, 0, 0, false⟩

end CpwrPeak

/-- C5: at the failing input `re = 3, im = 4, real_in = 25`, `rs = 0`
(so `p = re^2 + im^2 = 25 = real_in << 0`), the `CpwrPeak` hardware
outputs `out = 25` with `is_greater = false` three cycles later, although
`p ≥ real_in << rs` holds: the design derives `is_greater` from the sign
bit of `(real_in << rs) - p`, which implements the strict comparison
`p > real_in << rs`, while the in-repo golden model `CpwrPeak.model` and
its test assert `p >= real_in << rs`. -/
theorem c5_cpwr_is_greater_equality_bug :
    (CpwrPeak.run 4 6 0 0 CpwrPeak.zeroState
      (fun _ => ⟨3, 4, 25, true⟩) 3).out = 25 ∧
    (CpwrPeak.run 4 6 0 0 CpwrPeak.zeroState
      (fun _ => ⟨3, 4, 25, true⟩) 3).is_greater = false ∧
    ((3 : ℤ) ^ 2 + 4 ^ 2 ≥ 25 * 2 ^ 0) ∧
    (CpwrPeak.run 4 6 0 0 CpwrPeak.zeroState
      (fun _ => ⟨3, 4, 24, true⟩) 3).is_greater = true := by
  refine ⟨?_, ?_, by norm_num, ?_⟩ <;> decide

/-- Wrap of an integer into an unsigned `W`-bit natural, as stored in an
unsigned Amaranth signal of width `W`. -/
def natWrap (W : ℕ) (x : ℤ) : ℕ := (x % 2 ^ W).toNat

theorem natWrap_coe (W : ℕ) (x : ℤ) : ((natWrap W x : ℕ) : ℤ) = x % 2 ^ W := by
  unfold natWrap
  exact Int.toNat_of_nonneg (Int.emod_nonneg x (by positivity))

/-- Bounds of the arithmetic right shift of a `a+1`-bit signed value. -/
theorem ashr_bounds {a t : ℕ} {d : ℤ} (ht : t ≤ a)
    (h1 : -(2 ^ a) ≤ d) (h2 : d < 2 ^ a) :
    -(2 ^ (a - t)) ≤ ashr d t ∧ ashr d t < 2 ^ (a - t) := by
  have hpow : (2 : ℤ) ^ a = 2 ^ (a - t) * 2 ^ t := by
    rw [← pow_add]; congr 1; omega
  have htpos : (0 : ℤ) < 2 ^ t := by positivity
  constructor
  · have hlo : (-(2 ^ a) : ℤ) / 2 ^ t = -(2 ^ (a - t)) := by
      rw [hpow, neg_mul_eq_neg_mul, Int.mul_ediv_cancel _ (ne_of_gt htpos)]
    have := Int.ediv_le_ediv htpos h1
    rw [hlo] at this
    exact this
  · have hhi : ((2 : ℤ) ^ a - 1) / 2 ^ t = 2 ^ (a - t) - 1 := by
      rw [show (2 : ℤ) ^ a - 1 = (2 ^ t - 1) + (2 ^ (a - t) - 1) * 2 ^ t by
        rw [hpow]; ring]
      rw [Int.add_mul_ediv_right _ _ (ne_of_gt htpos),
        Int.ediv_eq_zero_of_lt (by omega) (by omega)]
      ring
    have := Int.ediv_le_ediv htpos (show d ≤ 2 ^ a - 1 by omega)
    rw [hhi] at this
    show ashr d t < 2 ^ (a - t)
    unfold ashr
    omega

namespace R2SDF

/-- The buffer length `2^(order-1)` of the R2SDF delay line. -/
def buffLen (order : ℕ) : ℕ := 2 ^ (order - 1)

/-- Buffer storage width `max width_in w_out` (fft.py `w_buff`). -/
def wbuff (w t : ℕ) : ℕ := max w (w + 1 - t)

/-- Output width `width_in + 1 - truncate`. -/
def wout (w t : ℕ) : ℕ := w + 1 - t

/-- `value[:w].as_signed()`: the low `w` bits of a stored buffer word,
reinterpreted as a signed value. -/
def toSigned (w : ℕ) (v : ℕ) : ℤ := wrapSigned w (v : ℤ)

/-- The value pushed into the delay line on one clock edge
(`buff_re_in`): during filling (`mux_control` low) the raw input, during
computing the truncated difference `(buffer_tail - in) >> t`. -/
def pushVal (w t : ℕ) (tailv : ℕ) (x : ℤ) (mc : Bool) : ℕ :=
  if mc then natWrap (wbuff w t) (ashr (toSigned w tailv - x) t)
  else natWrap (wbuff w t) x

/-- The combinational output (`re_out`): during filling the buffer tail,
during computing the truncated sum `(buffer_tail + in) >> t`; in both
cases assigned to a signed signal of width `wout`. -/
def outVal (w t : ℕ) (tailv : ℕ) (x : ℤ) (mc : Bool) : ℤ :=
  if mc then wrapSigned (wout w t) (ashr (toSigned w tailv + x) t)
  else wrapSigned (wout w t) (tailv : ℤ)

/-- One clock edge of the shift-register delay line. -/
def stepBuf (order w t : ℕ) (b : ℕ → ℕ) (x : ℤ) (mc : Bool) : ℕ → ℕ :=
  fun i => if i = 0 then pushVal w t (b (buffLen order - 1)) x mc
    else b (i - 1)

/-- The delay-line contents after `m` clock edges. -/
def runBuf (order w t : ℕ) (b0 : ℕ → ℕ) (x : ℕ → ℤ) (mc : ℕ → Bool) :
    ℕ → ℕ → ℕ
  | 0 => b0
  | m + 1 => stepBuf order w t (runBuf order w t b0 x mc m) (x m) (mc m)

/-- The value pushed into the delay line at cycle `j`. -/
def pushed (order w t : ℕ) (b0 : ℕ → ℕ) (x : ℕ → ℤ) (mc : ℕ → Bool)
    (j : ℕ) : ℕ :=
  pushVal w t (runBuf order w t b0 x mc j (buffLen order - 1)) (x j) (mc j)

/-- The module output during cycle `m`. -/
def output (order w t : ℕ) (b0 : ℕ → ℕ) (x : ℕ → ℤ) (mc : ℕ → Bool)
    (m : ℕ) : ℤ :=
  outVal w t (runBuf order w t b0 x mc m (buffLen order - 1)) (x m) (mc m)

/-- The prescribed `mux_control` schedule: low during the first
`2^(order-1)` samples of each `2^order`-sample block, high during the
next `2^(order-1)`. -/
def muxCtl (order : ℕ) : ℕ → Bool :=
  fun k => decide (2 ^ (order - 1) ≤ k % 2 ^ order)

/-- Entry `i` of the delay line at time `m` is the value pushed at time
`m - 1 - i`. -/
theorem runBuf_entry (order w t : ℕ) (b0 : ℕ → ℕ) (x : ℕ → ℤ)
    (mc : ℕ → Bool) :
    ∀ m i, i < buffLen order → i + 1 ≤ m →
      runBuf order w t b0 x mc m i
        = pushed order w t b0 x mc (m - 1 - i) := by
  intro m
  induction m with
  | zero => intro i _ him; omega
  | succ k ih =>
    intro i hi him
    show stepBuf order w t (runBuf order w t b0 x mc k) (x k) (mc k) i = _
    unfold stepBuf
    by_cases h0 : i = 0
    · subst h0
      simp only [if_pos rfl]
      rfl
    · rw [if_neg h0]
      rcases Nat.exists_eq_succ_of_ne_zero h0 with ⟨i', rfl⟩
      rw [Nat.succ_sub_one]
      rw [ih i' (by omega) (by omega)]
      congr 1
      omega

/-- The buffer tail at time `m ≥ buffLen` is the value pushed at time
`m - buffLen`. -/
theorem runBuf_tail (order w t : ℕ) (b0 : ℕ → ℕ) (x : ℕ → ℤ)
    (mc : ℕ → Bool) (m : ℕ) (ho : 1 ≤ order) (hm : buffLen order ≤ m) :
    runBuf order w t b0 x mc m (buffLen order - 1)
      = pushed order w t b0 x mc (m - buffLen order) := by
  have hpos : 1 ≤ buffLen order := Nat.one_le_two_pow
  rw [runBuf_entry order w t b0 x mc m (buffLen order - 1) (by omega)
    (by omega)]
  congr 1
  omega

end R2SDF

namespace R2SDF

/-- Helper modular identities for the `mux_control` schedule: when the
cycle index `m` is in the computing half of its block, `m - buffLen` and
`m + buffLen` both land in a filling half. -/
theorem mod_shift_identities (order m : ℕ) (ho : 1 ≤ order)
    (hm : buffLen order ≤ m % 2 ^ order) :
    (m - buffLen order) % 2 ^ order = m % 2 ^ order - buffLen order ∧
    (m + buffLen order) % 2 ^ order = m % 2 ^ order - buffLen order := by
  have hNL : 2 ^ order = buffLen order + buffLen order := by
    have h : order = (order - 1) + 1 := by omega
    have h2 : (2 : ℕ) ^ order = 2 ^ ((order - 1) + 1) := by rw [← h]
    unfold buffLen
    rw [h2, pow_succ]
    omega
  have hLpos : 1 ≤ buffLen order := Nat.one_le_two_pow
  have hNpos : 0 < 2 ^ order := by positivity
  have hmodlt : m % 2 ^ order < 2 ^ order := Nat.mod_lt m hNpos
  have hmge : buffLen order ≤ m := le_trans hm (Nat.mod_le m _)
  have hLN : buffLen order < 2 ^ order := by omega
  constructor
  · have key : m - buffLen order + buffLen order = m := by omega
    have h2 : m % 2 ^ order
        = ((m - buffLen order) % 2 ^ order + buffLen order) % 2 ^ order := by
      conv_lhs => rw [← key]
      rw [Nat.add_mod, Nat.mod_eq_of_lt hLN]
    have hr' : (m - buffLen order) % 2 ^ order < 2 ^ order :=
      Nat.mod_lt _ hNpos
    by_cases hc : (m - buffLen order) % 2 ^ order + buffLen order < 2 ^ order
    · rw [Nat.mod_eq_of_lt hc] at h2
      omega
    · have hge : 2 ^ order
          ≤ (m - buffLen order) % 2 ^ order + buffLen order := by omega
      have hlt : (m - buffLen order) % 2 ^ order + buffLen order - 2 ^ order
          < 2 ^ order := by omega
      rw [Nat.mod_eq_sub_mod hge, Nat.mod_eq_of_lt hlt] at h2
      omega
  · have h2 : (m + buffLen order) % 2 ^ order
        = (m % 2 ^ order + buffLen order) % 2 ^ order := by
      rw [Nat.add_mod, Nat.mod_eq_of_lt hLN]
    have hge : 2 ^ order ≤ m % 2 ^ order + buffLen order := by omega
    have hlt : m % 2 ^ order + buffLen order - 2 ^ order < 2 ^ order := by
      omega
    rw [Nat.mod_eq_sub_mod hge, Nat.mod_eq_of_lt hlt] at h2
    omega

/-- Both outputs that a block of `2^order` inputs owes to the input pair
`(x (m - 2^(order-1)), x m)`: during the computing phase the truncated
sum, and `2^(order-1)` cycles later (the filling phase of the next
block) the truncated difference that was written back into the delay
line. -/
theorem scalar_outputs (order w t : ℕ) (ho : 1 ≤ order) (hw : 1 ≤ w)
    (ht : t ≤ w) (b0 : ℕ → ℕ) (x : ℕ → ℤ)
    (hb : ∀ k, -(2 ^ (w - 1)) ≤ x k ∧ x k < 2 ^ (w - 1))
    (m : ℕ) (hm : buffLen order ≤ m % 2 ^ order) :
    output order w t b0 x (muxCtl order) m
      = ashr (x (m - buffLen order) + x m) t
    ∧ output order w t b0 x (muxCtl order) (m + buffLen order)
      = ashr (x (m - buffLen order) - x m) t := by
  obtain ⟨hsubmod, haddmod⟩ := mod_shift_identities order m ho hm
  have hNL : 2 ^ order = buffLen order + buffLen order := by
    have h : order = (order - 1) + 1 := by omega
    have h2 : (2 : ℕ) ^ order = 2 ^ ((order - 1) + 1) := by rw [← h]
    unfold buffLen
    rw [h2, pow_succ]
    omega
  have hLpos : 1 ≤ buffLen order := Nat.one_le_two_pow
  have hNpos : 0 < 2 ^ order := by positivity
  have hmodlt : m % 2 ^ order < 2 ^ order := Nat.mod_lt m hNpos
  have hmge : buffLen order ≤ m := le_trans hm (Nat.mod_le m _)
  have hww : (2 : ℤ) ^ w = 2 ^ (w - 1) + 2 ^ (w - 1) := by
    have h : w = (w - 1) + 1 := by omega
    have h2 : (2 : ℤ) ^ w = 2 ^ ((w - 1) + 1) := by rw [← h]
    rw [h2, pow_succ]
    ring
  have hwwout : wout w t - 1 = w - t := by unfold wout; omega
  have hwgele : w ≤ wbuff w t := le_max_left _ _
  have hogele : wout w t ≤ wbuff w t := le_max_right _ _
  have houtpos : 1 ≤ wout w t := by unfold wout; omega
  have hbl : buffLen order = 2 ^ (order - 1) := rfl
  -- mux_control values at the three relevant cycles
  have hmux_m : muxCtl order m = true := decide_eq_true hm
  have hmux_prev : muxCtl order (m - buffLen order) = false := by
    unfold muxCtl
    exact decide_eq_false (by omega)
  have hmux_next : muxCtl order (m + buffLen order) = false := by
    unfold muxCtl
    exact decide_eq_false (by omega)
  -- the value sitting at the buffer tail during cycle m
  have htail_m := runBuf_tail order w t b0 x (muxCtl order) m ho
    (by omega)
  have hpush_prev : pushed order w t b0 x (muxCtl order)
      (m - buffLen order) = natWrap (wbuff w t) (x (m - buffLen order)) := by
    unfold pushed pushVal
    rw [hmux_prev]
    simp
  have hts : toSigned w (pushed order w t b0 x (muxCtl order)
      (m - buffLen order)) = x (m - buffLen order) := by
    rw [hpush_prev]
    unfold toSigned
    rw [natWrap_coe, wrapSigned_emod w (wbuff w t) _ hwgele]
    exact wrapSigned_eq_self hw (hb _).1 (hb _).2
  -- computing-phase output
  have hout1 : output order w t b0 x (muxCtl order) m
      = ashr (x (m - buffLen order) + x m) t := by
    unfold output outVal
    rw [hmux_m, htail_m, hts]
    simp only [if_true]
    have hbnd := ashr_bounds (a := w) ht
      (d := x (m - buffLen order) + x m)
      (by have h1 := hb (m - buffLen order); have h2 := hb m; omega)
      (by have h1 := hb (m - buffLen order); have h2 := hb m; omega)
    refine wrapSigned_eq_self houtpos ?_ ?_ <;> rw [hwwout]
    · exact hbnd.1
    · exact hbnd.2
  -- filling-phase output of the next block
  have htail_next : runBuf order w t b0 x (muxCtl order)
      (m + buffLen order) (buffLen order - 1)
      = pushed order w t b0 x (muxCtl order) m := by
    rw [runBuf_tail order w t b0 x (muxCtl order) (m + buffLen order) ho
      (by omega)]
    congr 1
    omega
  have hpush_m : pushed order w t b0 x (muxCtl order) m
      = natWrap (wbuff w t) (ashr (x (m - buffLen order) - x m) t) := by
    unfold pushed pushVal
    rw [hmux_m, htail_m, hts]
    simp
  have hout2 : output order w t b0 x (muxCtl order) (m + buffLen order)
      = ashr (x (m - buffLen order) - x m) t := by
    unfold output outVal
    rw [hmux_next, htail_next, hpush_m]
    simp only [Bool.false_eq_true, if_false]
    rw [natWrap_coe, wrapSigned_emod (wout w t) (wbuff w t) _ hogele]
    have hbnd := ashr_bounds (a := w) ht
      (d := x (m - buffLen order) - x m)
      (by have h1 := hb (m - buffLen order); have h2 := hb m; omega)
      (by have h1 := hb (m - buffLen order); have h2 := hb m; omega)
    refine wrapSigned_eq_self houtpos ?_ ?_ <;> rw [hwwout]
    · exact hbnd.1
    · exact hbnd.2
  exact ⟨hout1, hout2⟩

end R2SDF

/-- C3: for an R2SDF butterfly of order `n` driven with `mux_control`
low for the first `2^(n-1)` samples of each `2^n`-sample block and high
for the next `2^(n-1)`: during the computing phase the output is
`(buffer_tail + in) >> t` with `(buffer_tail - in) >> t` written back
into the delay line, so each block of `2^n` inputs produces the radix-2
DIF butterfly outputs `(x[k] + x[k + 2^(n-1)]) >> t` followed (one half
block later, as the delay line drains) by `(x[k] - x[k + 2^(n-1)]) >> t`,
wrapped to the output width `w + 1 - t`.  The real and imaginary
datapaths of the source are two instances of the same scalar machine
(`bf2ii = False`). -/
theorem c3_r2sdf_butterfly (order w t : ℕ) (ho : 1 ≤ order) (hw : 1 ≤ w)
    (ht : t ≤ w) (b0re b0im : ℕ → ℕ) (xre xim : ℕ → ℤ)
    (hbre : ∀ k, -(2 ^ (w - 1)) ≤ xre k ∧ xre k < 2 ^ (w - 1))
    (hbim : ∀ k, -(2 ^ (w - 1)) ≤ xim k ∧ xim k < 2 ^ (w - 1))
    (m : ℕ) (hm : R2SDF.buffLen order ≤ m % 2 ^ order) :
    R2SDF.output order w t b0re xre (R2SDF.muxCtl order) m
      = ashr (xre (m - R2SDF.buffLen order) + xre m) t ∧
    R2SDF.output order w t b0im xim (R2SDF.muxCtl order) m
      = ashr (xim (m - R2SDF.buffLen order) + xim m) t ∧
    R2SDF.output order w t b0re xre (R2SDF.muxCtl order)
        (m + R2SDF.buffLen order)
      = ashr (xre (m - R2SDF.buffLen order) - xre m) t ∧
    R2SDF.output order w t b0im xim (R2SDF.muxCtl order)
        (m + R2SDF.buffLen order)
      = ashr (xim (m - R2SDF.buffLen order) - xim m) t := by
  have hre := R2SDF.scalar_outputs order w t ho hw ht b0re xre hbre m hm
  have him := R2SDF.scalar_outputs order w t ho hw ht b0im xim hbim m hm
  exact ⟨hre.1, him.1, hre.2, him.2⟩

theorem c3_r2sdf_butterfly_witness :
    (∀ k, -((2 : ℤ) ^ (3 - 1)) ≤ (if k % 4 = 0 then (3 : ℤ) else -2)
      ∧ (if k % 4 = 0 then (3 : ℤ) else -2) < 2 ^ (3 - 1)) ∧
    R2SDF.buffLen 2 ≤ 2 % 2 ^ 2 ∧
    R2SDF.output 2 3 1 (fun _ => 0)
      (fun k => if k % 4 = 0 then (3 : ℤ) else -2) (R2SDF.muxCtl 2) 2 = 0 ∧
    R2SDF.output 2 3 1 (fun _ => 0)
      (fun k => if k % 4 = 0 then (3 : ℤ) else -2) (R2SDF.muxCtl 2)
      (2 + R2SDF.buffLen 2) = 2 := by
  have hbre : ∀ k, -((2 : ℤ) ^ (3 - 1))
      ≤ (if k % 4 = 0 then (3 : ℤ) else -2)
      ∧ (if k % 4 = 0 then (3 : ℤ) else -2) < 2 ^ (3 - 1) := by
    intro k
    refine ⟨?_, ?_⟩ <;> split <;> norm_num
  have h := c3_r2sdf_butterfly 2 3 1 (by norm_num) (by norm_num)
    (by norm_num) (fun _ => 0) (fun _ => 0)
    (fun k => if k % 4 = 0 then (3 : ℤ) else -2)
    (fun k => if k % 4 = 0 then (3 : ℤ) else -2)
    hbre hbre 2 (by decide)
  refine ⟨hbre, by decide, ?_, ?_⟩
  · rw [h.1]; decide
  · rw [h.2.2.1]; decide

namespace SpectrumIntegrator

/-- `util.bit_invert(n, nbits, 1)`: reversal of the `nbits`-bit binary
representation of `n`. -/
def bitInvert (nbits n : ℕ) : ℕ :=
  (List.range nbits).foldl
    (fun acc j => acc + (if n.testBit j then 2 ^ (nbits - 1 - j) else 0)) 0

/-- `calc_len` of `IQToFloatingPoint.model`: the two's-complement bit
length of an integer (Python `bit_length` plus a sign bit). -/
def calcLen (a : ℤ) : ℕ :=
  if 0 ≤ a then Nat.size a.toNat + 1 else Nat.size (-(a + 1)).toNat + 1

/-- The exponent chosen by `IQToFloatingPoint.model` for output width
`ow`: how far the pair must be shifted right so that both components fit
in `ow` bits. -/
def toFpExp (ow : ℕ) (re im : ℤ) : ℕ :=
  max (calcLen re - ow) (calcLen im - ow)

/-- `IQToFloatingPoint.model`: mantissa pair and shared exponent. -/
def toFpModel (ow : ℕ) (re im : ℤ) : ℤ × ℤ × ℕ :=
  (ashr re (toFpExp ow re im), ashr im (toFpExp ow re im), toFpExp ow re im)

/-- `MakeCommonExponent.model` as instantiated by the integrator
(`a` an IQ amplitude, `b` an accumulator in power representation whose
exponent counts factors of 4, so its shift is doubled): both operands are
brought to the maximum of the two exponents by right-shifting the one
with the lesser exponent. -/
def commonExpModel (reA imA : ℤ) (ea : ℕ) (b : ℤ) (eb : ℕ) :
    ℤ × ℤ × ℤ × ℕ :=
  (ashr reA (max ea eb - ea), ashr imA (max ea eb - ea),
    ashr b (2 * (max ea eb - eb)), max ea eb)

/-- One integration step of one frequency bin, following
`SpectrumIntegrator.model`: convert the sample to floating point,
equalise exponents with the stored accumulator, then either add the
power (`peak = false`) or keep the maximum (`peak = true`, overwriting
mantissa and exponent only when `CpwrPeak.model` reports
`pwr >= acc`). -/
def binStep (fw : ℕ) (peak : Bool) (acc : ℤ × ℕ) (x : ℤ × ℤ) : ℤ × ℕ :=
  let f := toFpModel fw x.1 x.2
  let c := commonExpModel f.1 f.2.1 f.2.2 acc.1 acc.2
  let pwr := c.1 ^ 2 + c.2.1 ^ 2
  if peak then
    if pwr ≥ c.2.2.1 then (pwr, c.2.2.2) else acc
  else
    (pwr + c.2.2.1, c.2.2.2)

/-- The accumulator of one bin after integrating the list of samples
`xs`, starting from a cleared accumulator. -/
def binFold (fw : ℕ) (peak : Bool) (xs : List (ℤ × ℤ)) : ℤ × ℕ :=
  xs.foldl (binStep fw peak) (0, 0)

/-- The read-out index order of `SpectrumIntegrator.model`: output `n`
holds the accumulator of bin `bitInvert o ((n + 2^(o-1)) % 2^o)`
(bit reversal composed with fftshift). -/
def outputBin (o n : ℕ) : ℕ := bitInvert o ((n + 2 ^ (o - 1)) % 2 ^ o)

/-- `SpectrumIntegrator.model` at output index `n`: the block-float
accumulator of the corresponding bin over `nint` consecutive FFT
vectors.  `vecs j b` is bin `b` of the `j`-th FFT vector. -/
def integratorModel (o fw : ℕ) (peak : Bool) (vecs : ℕ → ℕ → ℤ × ℤ)
    (nint n : ℕ) : ℤ × ℕ :=
  binFold fw peak ((List.range nint).map (fun j => vecs j (outputBin o n)))

/-- An integer fits `w` signed bits exactly when its two's-complement
length is at most `w`. -/
theorem calcLen_le (w : ℕ) (a : ℤ) (hw : 1 ≤ w)
    (h1 : -(2 ^ (w - 1)) ≤ a) (h2 : a < 2 ^ (w - 1)) : calcLen a ≤ w := by
  have hc : (((2 : ℕ) ^ (w - 1) : ℕ) : ℤ) = (2 : ℤ) ^ (w - 1) := by
    push_cast; ring
  unfold calcLen
  split
  · have hlt : a.toNat < 2 ^ (w - 1) := by omega
    have := Nat.size_le.mpr hlt
    omega
  · have hlt : (-(a + 1)).toNat < 2 ^ (w - 1) := by omega
    have := Nat.size_le.mpr hlt
    omega

theorem toFpExp_eq_zero (fw : ℕ) (hfw : 1 ≤ fw) (re im : ℤ)
    (hre1 : -(2 ^ (fw - 1)) ≤ re) (hre2 : re < 2 ^ (fw - 1))
    (him1 : -(2 ^ (fw - 1)) ≤ im) (him2 : im < 2 ^ (fw - 1)) :
    toFpExp fw re im = 0 := by
  have h1 := calcLen_le fw re hfw hre1 hre2
  have h2 := calcLen_le fw im hfw him1 him2
  unfold toFpExp
  omega

theorem ashr_zero (x : ℤ) : ashr x 0 = x := by
  unfold ashr
  simp

end SpectrumIntegrator

namespace SpectrumIntegrator

/-- When the incoming sample and the accumulator both carry exponent 0,
an average-mode step adds the exact power. -/
theorem binStep_avg_zero (fw : ℕ) (hfw : 1 ≤ fw) (acc : ℤ) (x : ℤ × ℤ)
    (h1 : -(2 ^ (fw - 1)) ≤ x.1) (h2 : x.1 < 2 ^ (fw - 1))
    (h3 : -(2 ^ (fw - 1)) ≤ x.2) (h4 : x.2 < 2 ^ (fw - 1)) :
    binStep fw false (acc, 0) x = (acc + (x.1 ^ 2 + x.2 ^ 2), 0) := by
  unfold binStep toFpModel commonExpModel
  rw [toFpExp_eq_zero fw hfw x.1 x.2 h1 h2 h3 h4]
  simp only [ashr_zero, Nat.sub_self, max_self, Nat.mul_zero,
    Bool.false_eq_true, if_false]
  rw [add_comm (x.1 ^ 2 + x.2 ^ 2) acc]

/-- When the incoming sample and the accumulator both carry exponent 0,
a peak-mode step keeps the maximum power. -/
theorem binStep_peak_zero (fw : ℕ) (hfw : 1 ≤ fw) (acc : ℤ) (x : ℤ × ℤ)
    (h1 : -(2 ^ (fw - 1)) ≤ x.1) (h2 : x.1 < 2 ^ (fw - 1))
    (h3 : -(2 ^ (fw - 1)) ≤ x.2) (h4 : x.2 < 2 ^ (fw - 1)) :
    binStep fw true (acc, 0) x = (max acc (x.1 ^ 2 + x.2 ^ 2), 0) := by
  unfold binStep toFpModel commonExpModel
  rw [toFpExp_eq_zero fw hfw x.1 x.2 h1 h2 h3 h4]
  simp only [ashr_zero, Nat.sub_self, max_self, Nat.mul_zero, if_true]
  split
  · rename_i hge
    rw [max_eq_right (by omega)]
  · rename_i hge
    rw [max_eq_left (by omega)]

theorem binFold_avg (fw : ℕ) (hfw : 1 ≤ fw) :
    ∀ (xs : List (ℤ × ℤ)) (acc : ℤ),
    (∀ x ∈ xs, -(2 ^ (fw - 1)) ≤ x.1 ∧ x.1 < 2 ^ (fw - 1) ∧
      -(2 ^ (fw - 1)) ≤ x.2 ∧ x.2 < 2 ^ (fw - 1)) →
    xs.foldl (binStep fw false) (acc, 0)
      = (acc + (xs.map (fun x => x.1 ^ 2 + x.2 ^ 2)).sum, 0) := by
  intro xs
  induction xs with
  | nil => intro acc _; simp
  | cons x xs ih =>
    intro acc hb
    obtain ⟨hx1, hx2, hx3, hx4⟩ := hb x (by simp)
    show List.foldl _ (binStep fw false (acc, 0) x) xs = _
    rw [binStep_avg_zero fw hfw acc x hx1 hx2 hx3 hx4]
    rw [ih _ (fun y hy => hb y (by simp [hy]))]
    simp
    ring

theorem binFold_peak (fw : ℕ) (hfw : 1 ≤ fw) :
    ∀ (xs : List (ℤ × ℤ)) (acc : ℤ),
    (∀ x ∈ xs, -(2 ^ (fw - 1)) ≤ x.1 ∧ x.1 < 2 ^ (fw - 1) ∧
      -(2 ^ (fw - 1)) ≤ x.2 ∧ x.2 < 2 ^ (fw - 1)) →
    xs.foldl (binStep fw true) (acc, 0)
      = ((xs.map (fun x => x.1 ^ 2 + x.2 ^ 2)).foldl max acc, 0) := by
  intro xs
  induction xs with
  | nil => intro acc _; simp
  | cons x xs ih =>
    intro acc hb
    obtain ⟨hx1, hx2, hx3, hx4⟩ := hb x (by simp)
    show List.foldl _ (binStep fw true (acc, 0) x) xs = _
    rw [binStep_peak_zero fw hfw acc x hx1 hx2 hx3 hx4]
    rw [ih _ (fun y hy => hb y (by simp [hy]))]
    simp

end SpectrumIntegrator

namespace SpectrumIntegrator

/-- Specification-side description of one block-float accumulation
step in average mode, written from the spec's words (to be compared
with the golden model): the input is an fp triple `(re, im, e)`; the
stored and the incoming exponents are equalised to the maximum of the
two by right-shifting the lesser-exponent operand — the incoming
amplitude pair by the exponent difference, the stored accumulator by
twice the difference, since the accumulator is a power quantity whose
exponent units are factors of 4 — and then the power of the equalised
sample is added to the equalised accumulator, under the common
exponent. -/
def specAvgStep (acc : ℤ × ℕ) (x : ℤ × ℤ × ℕ) : ℤ × ℕ :=
  (ashr x.1 (max acc.2 x.2.2 - x.2.2) ^ 2
      + ashr x.2.1 (max acc.2 x.2.2 - x.2.2) ^ 2
      + ashr acc.1 (2 * (max acc.2 x.2.2 - acc.2)),
    max acc.2 x.2.2)

/-- Specification-side peak-mode step: after the same equalisation,
the larger of the equalised stored power and the incoming power is
kept, with its exponent. -/
def specPeakStep (acc : ℤ × ℕ) (x : ℤ × ℤ × ℕ) : ℤ × ℕ :=
  if ashr x.1 (max acc.2 x.2.2 - x.2.2) ^ 2
      + ashr x.2.1 (max acc.2 x.2.2 - x.2.2) ^ 2
      ≥ ashr acc.1 (2 * (max acc.2 x.2.2 - acc.2)) then
    (ashr x.1 (max acc.2 x.2.2 - x.2.2) ^ 2
        + ashr x.2.1 (max acc.2 x.2.2 - x.2.2) ^ 2,
      max acc.2 x.2.2)
  else acc

/-- Block-float accumulation of a stream of fp triples from a cleared
accumulator, as described by the spec. -/
def specAccumulate (peak : Bool) (xs : List (ℤ × ℤ × ℕ)) : ℤ × ℕ :=
  xs.foldl (fun acc x =>
    if peak then specPeakStep acc x else specAvgStep acc x) (0, 0)

theorem binStep_false_eq_spec (fw : ℕ) (acc : ℤ × ℕ) (x : ℤ × ℤ) :
    binStep fw false acc x = specAvgStep acc (toFpModel fw x.1 x.2) := by
  simp only [binStep, specAvgStep, toFpModel, commonExpModel,
    Bool.false_eq_true, if_false]
  rw [Nat.max_comm (toFpExp fw x.1 x.2) acc.2]

theorem binStep_true_eq_spec (fw : ℕ) (acc : ℤ × ℕ) (x : ℤ × ℤ) :
    binStep fw true acc x = specPeakStep acc (toFpModel fw x.1 x.2) := by
  simp only [binStep, specPeakStep, toFpModel, commonExpModel, if_true]
  rw [Nat.max_comm (toFpExp fw x.1 x.2) acc.2]

/-- The golden-model fold of one bin is exactly the spec-described
block-float accumulation of the fp-converted samples. -/
theorem binFold_eq_specAccumulate (fw : ℕ) (peak : Bool)
    (xs : List (ℤ × ℤ)) :
    binFold fw peak xs
      = specAccumulate peak
          (xs.map (fun x => toFpModel fw x.1 x.2)) := by
  unfold binFold specAccumulate
  rw [List.foldl_map]
  congr 1
  funext acc x
  cases peak with
  | false => simpa using binStep_false_eq_spec fw acc x
  | true => simpa using binStep_true_eq_spec fw acc x

/-- In average mode the shared exponent after a fold is the maximum of
the stored exponent and all incoming exponents: equalisation to the
maximum. -/
theorem binFold_exp_avg (fw : ℕ) :
    ∀ (xs : List (ℤ × ℤ)) (acc : ℤ × ℕ),
    (xs.foldl (binStep fw false) acc).2
      = (xs.map (fun x => toFpExp fw x.1 x.2)).foldl max acc.2 := by
  intro xs
  induction xs with
  | nil => intro acc; rfl
  | cons x xs ih =>
    intro acc
    show (xs.foldl (binStep fw false) (binStep fw false acc x)).2 = _
    rw [ih]
    have hstep : (binStep fw false acc x).2
        = max acc.2 (toFpExp fw x.1 x.2) := by
      simp only [binStep, toFpModel, commonExpModel,
        Bool.false_eq_true, if_false]
      exact Nat.max_comm _ _
    rw [hstep]
    rfl

/-- Converse of `calcLen_le`: an integer of two's-complement length at
most `w` lies in the `w`-bit signed range. -/
theorem calcLen_inv (w : ℕ) (a : ℤ) (hw : 1 ≤ w) (h : calcLen a ≤ w) :
    -(2 ^ (w - 1)) ≤ a ∧ a < 2 ^ (w - 1) := by
  have hc : ((2 ^ (w - 1) : ℕ) : ℤ) = (2 : ℤ) ^ (w - 1) := by
    push_cast
    ring
  unfold calcLen at h
  split at h
  · have hs : a.toNat < 2 ^ (w - 1) := Nat.size_le.mp (by omega)
    omega
  · have hs : (-(a + 1)).toNat < 2 ^ (w - 1) := Nat.size_le.mp (by omega)
    omega

/-- The fp mantissa pair produced by `IQToFloatingPoint.model` always
fits the `fw`-bit signed range, for arbitrary inputs. -/
theorem toFp_range (fw : ℕ) (hfw : 1 ≤ fw) (re im : ℤ) :
    -(2 ^ (fw - 1)) ≤ (toFpModel fw re im).1 ∧
    (toFpModel fw re im).1 < 2 ^ (fw - 1) ∧
    -(2 ^ (fw - 1)) ≤ (toFpModel fw re im).2.1 ∧
    (toFpModel fw re im).2.1 < 2 ^ (fw - 1) := by
  have hre : calcLen re ≤ fw + toFpExp fw re im := by
    have h1 : calcLen re - fw ≤ toFpExp fw re im := by
      unfold toFpExp
      exact le_max_left _ _
    omega
  have him : calcLen im ≤ fw + toFpExp fw re im := by
    have h1 : calcLen im - fw ≤ toFpExp fw re im := by
      unfold toFpExp
      exact le_max_right _ _
    omega
  obtain ⟨hre1, hre2⟩ :=
    calcLen_inv (fw + toFpExp fw re im) re (by omega) hre
  obtain ⟨him1, him2⟩ :=
    calcLen_inv (fw + toFpExp fw re im) im (by omega) him
  have heq : fw + toFpExp fw re im - 1 = fw - 1 + toFpExp fw re im := by
    omega
  rw [heq] at hre1 hre2 him1 him2
  have hbr := ashr_bounds
    (show toFpExp fw re im ≤ fw - 1 + toFpExp fw re im by omega)
    hre1 hre2
  have hbi := ashr_bounds
    (show toFpExp fw re im ≤ fw - 1 + toFpExp fw re im by omega)
    him1 him2
  have hsub : fw - 1 + toFpExp fw re im - toFpExp fw re im = fw - 1 := by
    omega
  rw [hsub] at hbr hbi
  exact ⟨hbr.1, hbr.2, hbi.1, hbi.2⟩

theorem ashr_nonneg (x : ℤ) (n : ℕ) (h : 0 ≤ x) : 0 ≤ ashr x n :=
  Int.ediv_nonneg h (by positivity)

theorem ashr_le_self (x : ℤ) (n : ℕ) (h : 0 ≤ x) : ashr x n ≤ x :=
  Int.ediv_le_self _ h

/-- A further right shift of an `fw`-bit mantissa squares to at most
`2^(2*fw-2)`. -/
theorem ashr_sq_bound (fw : ℕ) (hfw : 1 ≤ fw) (m : ℤ) (d : ℕ)
    (h1 : -(2 ^ (fw - 1)) ≤ m) (h2 : m < 2 ^ (fw - 1)) :
    0 ≤ ashr m d ^ 2 ∧ ashr m d ^ 2 ≤ 2 ^ (2 * fw - 2) := by
  have hmono : (2 : ℤ) ^ (fw - 1) ≤ 2 ^ (fw - 1 + d) :=
    pow_le_pow_right₀ (by norm_num) (by omega)
  have hb := ashr_bounds (show d ≤ fw - 1 + d by omega)
    (show -(2 ^ (fw - 1 + d)) ≤ m by linarith)
    (show m < 2 ^ (fw - 1 + d) by linarith)
  have hsub : fw - 1 + d - d = fw - 1 := by omega
  rw [hsub] at hb
  refine ⟨sq_nonneg _, ?_⟩
  have hsq : ashr m d ^ 2 ≤ (2 ^ (fw - 1)) ^ 2 :=
    sq_le_sq' hb.1 (by linarith [hb.2])
  calc ashr m d ^ 2 ≤ ((2 : ℤ) ^ (fw - 1)) ^ 2 := hsq
    _ = 2 ^ (2 * fw - 2) := by
        rw [← pow_mul]
        congr 1
        omega

/-- The average-mode step value, decomposed into the two squared
equalised mantissas and the equalised stored power. -/
theorem binStep_avg_val (fw : ℕ) (acc : ℤ × ℕ) (x : ℤ × ℤ) :
    (binStep fw false acc x).1
      = ashr (toFpModel fw x.1 x.2).1
          (max (toFpModel fw x.1 x.2).2.2 acc.2
            - (toFpModel fw x.1 x.2).2.2) ^ 2
        + ashr (toFpModel fw x.1 x.2).2.1
          (max (toFpModel fw x.1 x.2).2.2 acc.2
            - (toFpModel fw x.1 x.2).2.2) ^ 2
        + ashr acc.1
            (2 * (max (toFpModel fw x.1 x.2).2.2 acc.2 - acc.2)) := rfl

theorem binStep_avg_le (fw : ℕ) (hfw : 1 ≤ fw) (acc : ℤ × ℕ)
    (x : ℤ × ℤ) (hacc : 0 ≤ acc.1) :
    0 ≤ (binStep fw false acc x).1 ∧
    (binStep fw false acc x).1 ≤ acc.1 + 2 ^ (2 * fw - 1) := by
  obtain ⟨hr1, hr2, hi1, hi2⟩ := toFp_range fw hfw x.1 x.2
  have hbr := ashr_sq_bound fw hfw (toFpModel fw x.1 x.2).1
    (max (toFpModel fw x.1 x.2).2.2 acc.2 - (toFpModel fw x.1 x.2).2.2)
    hr1 hr2
  have hbi := ashr_sq_bound fw hfw (toFpModel fw x.1 x.2).2.1
    (max (toFpModel fw x.1 x.2).2.2 acc.2 - (toFpModel fw x.1 x.2).2.2)
    hi1 hi2
  have hs1 : 0 ≤ ashr acc.1
      (2 * (max (toFpModel fw x.1 x.2).2.2 acc.2 - acc.2)) :=
    ashr_nonneg _ _ hacc
  have hs2 : ashr acc.1
      (2 * (max (toFpModel fw x.1 x.2).2.2 acc.2 - acc.2)) ≤ acc.1 :=
    ashr_le_self _ _ hacc
  have hpow : (2 : ℤ) ^ (2 * fw - 2) + 2 ^ (2 * fw - 2)
      = 2 ^ (2 * fw - 1) := by
    rw [← two_mul, ← pow_succ']
    congr 1
    omega
  rw [binStep_avg_val]
  constructor
  · linarith [hbr.1, hbi.1, hs1]
  · linarith [hbr.2, hbi.2, hs2, hpow]

theorem binStep_peak_alt (fw : ℕ) (acc : ℤ × ℕ) (x : ℤ × ℤ) :
    binStep fw true acc x
      = if ashr (toFpModel fw x.1 x.2).1
            (max (toFpModel fw x.1 x.2).2.2 acc.2
              - (toFpModel fw x.1 x.2).2.2) ^ 2
          + ashr (toFpModel fw x.1 x.2).2.1
            (max (toFpModel fw x.1 x.2).2.2 acc.2
              - (toFpModel fw x.1 x.2).2.2) ^ 2
          ≥ ashr acc.1
              (2 * (max (toFpModel fw x.1 x.2).2.2 acc.2 - acc.2))
        then
          (ashr (toFpModel fw x.1 x.2).1
              (max (toFpModel fw x.1 x.2).2.2 acc.2
                - (toFpModel fw x.1 x.2).2.2) ^ 2
            + ashr (toFpModel fw x.1 x.2).2.1
              (max (toFpModel fw x.1 x.2).2.2 acc.2
                - (toFpModel fw x.1 x.2).2.2) ^ 2,
            max (toFpModel fw x.1 x.2).2.2 acc.2)
        else acc := rfl

theorem binStep_peak_le (fw : ℕ) (hfw : 1 ≤ fw) (acc : ℤ × ℕ)
    (x : ℤ × ℤ) (hacc1 : 0 ≤ acc.1)
    (hacc2 : acc.1 ≤ 2 ^ (2 * fw - 1)) :
    0 ≤ (binStep fw true acc x).1 ∧
    (binStep fw true acc x).1 ≤ 2 ^ (2 * fw - 1) := by
  obtain ⟨hr1, hr2, hi1, hi2⟩ := toFp_range fw hfw x.1 x.2
  have hbr := ashr_sq_bound fw hfw (toFpModel fw x.1 x.2).1
    (max (toFpModel fw x.1 x.2).2.2 acc.2 - (toFpModel fw x.1 x.2).2.2)
    hr1 hr2
  have hbi := ashr_sq_bound fw hfw (toFpModel fw x.1 x.2).2.1
    (max (toFpModel fw x.1 x.2).2.2 acc.2 - (toFpModel fw x.1 x.2).2.2)
    hi1 hi2
  have hpow : (2 : ℤ) ^ (2 * fw - 2) + 2 ^ (2 * fw - 2)
      = 2 ^ (2 * fw - 1) := by
    rw [← two_mul, ← pow_succ']
    congr 1
    omega
  rw [binStep_peak_alt]
  split
  · dsimp only
    exact ⟨by linarith [hbr.1, hbi.1], by linarith [hbr.2, hbi.2]⟩
  · exact ⟨hacc1, hacc2⟩

theorem binFold_avg_le (fw : ℕ) (hfw : 1 ≤ fw) :
    ∀ (xs : List (ℤ × ℤ)) (acc : ℤ × ℕ), 0 ≤ acc.1 →
    0 ≤ (xs.foldl (binStep fw false) acc).1 ∧
    (xs.foldl (binStep fw false) acc).1
      ≤ acc.1 + (xs.length : ℤ) * 2 ^ (2 * fw - 1) := by
  intro xs
  induction xs with
  | nil =>
    intro acc h
    exact ⟨h, by simp⟩
  | cons x xs ih =>
    intro acc hacc
    obtain ⟨h1, h2⟩ := binStep_avg_le fw hfw acc x hacc
    obtain ⟨h3, h4⟩ := ih (binStep fw false acc x) h1
    refine ⟨h3, ?_⟩
    show (xs.foldl (binStep fw false) (binStep fw false acc x)).1 ≤ _
    have hlen : (((x :: xs).length : ℕ) : ℤ) = (xs.length : ℤ) + 1 := by
      push_cast [List.length_cons]
      ring
    rw [hlen]
    have hexp : (0 : ℤ) ≤ 2 ^ (2 * fw - 1) := by positivity
    nlinarith [h2, h4, hexp]

theorem binFold_peak_le (fw : ℕ) (hfw : 1 ≤ fw) :
    ∀ (xs : List (ℤ × ℤ)) (acc : ℤ × ℕ), 0 ≤ acc.1 →
    acc.1 ≤ 2 ^ (2 * fw - 1) →
    0 ≤ (xs.foldl (binStep fw true) acc).1 ∧
    (xs.foldl (binStep fw true) acc).1 ≤ 2 ^ (2 * fw - 1) := by
  intro xs
  induction xs with
  | nil =>
    intro acc h1 h2
    exact ⟨h1, h2⟩
  | cons x xs ih =>
    intro acc hacc1 hacc2
    obtain ⟨h1, h2⟩ := binStep_peak_le fw hfw acc x hacc1 hacc2
    exact ih (binStep fw true acc x) h1 h2

end SpectrumIntegrator

/-- C1: for every number of integrations `nint >= 1` (within the
capacity `2^nw` of the declared accumulator width) and EVERY sequence
of `nint` FFT output vectors, the `SpectrumIntegrator` golden model
produces at output index `n` the accumulator of bin
`bitInvert o ((n + 2^(o-1)) % 2^o)` — the bit-reversed-then-fftshifted
read-out order — and that accumulator is exactly the block-float
accumulation the spec describes, applied to the bin's fp-converted
samples: stored and incoming exponents equalised to their maximum by
right-shifting the lesser-exponent operand (the stored power operand
by twice the exponent difference, its exponent counting factors of 4),
then the power added in average mode or the maximum kept in peak
mode.  Moreover, in average mode the shared exponent is the maximum of
the incoming exponents; in both modes the accumulator mantissa is
non-negative and fits the declared mantissa width `2*fw + 1 + nw`; and
whenever all of the bin's samples already fit the fp mantissa width
(all exponents 0, the representation exact), the accumulator equals
the plain sum resp. maximum of the squared moduli. -/
theorem c1_spectrum_integrator (o fw nw nint n : ℕ)
    (vecs : ℕ → ℕ → ℤ × ℤ) (hfw : 1 ≤ fw) (hnint : 1 ≤ nint)
    (hnw : nint ≤ 2 ^ nw) :
    SpectrumIntegrator.integratorModel o fw false vecs nint n
      = SpectrumIntegrator.specAccumulate false
          (((List.range nint).map
            (fun j => vecs j (SpectrumIntegrator.outputBin o n))).map
            (fun x => SpectrumIntegrator.toFpModel fw x.1 x.2)) ∧
    SpectrumIntegrator.integratorModel o fw true vecs nint n
      = SpectrumIntegrator.specAccumulate true
          (((List.range nint).map
            (fun j => vecs j (SpectrumIntegrator.outputBin o n))).map
            (fun x => SpectrumIntegrator.toFpModel fw x.1 x.2)) ∧
    (SpectrumIntegrator.integratorModel o fw false vecs nint n).2
      = ((List.range nint).map (fun j =>
          SpectrumIntegrator.toFpExp fw
            (vecs j (SpectrumIntegrator.outputBin o n)).1
            (vecs j (SpectrumIntegrator.outputBin o n)).2)).foldl
          max 0 ∧
    (0 ≤ (SpectrumIntegrator.integratorModel o fw false vecs nint n).1
      ∧ (SpectrumIntegrator.integratorModel o fw false vecs nint n).1
        < 2 ^ (2 * fw + 1 + nw)) ∧
    (0 ≤ (SpectrumIntegrator.integratorModel o fw true vecs nint n).1
      ∧ (SpectrumIntegrator.integratorModel o fw true vecs nint n).1
        < 2 ^ (2 * fw + 1 + nw)) ∧
    ((∀ j, j < nint →
        -(2 ^ (fw - 1))
          ≤ (vecs j (SpectrumIntegrator.outputBin o n)).1
        ∧ (vecs j (SpectrumIntegrator.outputBin o n)).1 < 2 ^ (fw - 1)
        ∧ -(2 ^ (fw - 1))
          ≤ (vecs j (SpectrumIntegrator.outputBin o n)).2
        ∧ (vecs j (SpectrumIntegrator.outputBin o n)).2
          < 2 ^ (fw - 1)) →
      SpectrumIntegrator.integratorModel o fw false vecs nint n
        = (((List.range nint).map (fun j =>
            (vecs j (SpectrumIntegrator.outputBin o n)).1 ^ 2
            + (vecs j (SpectrumIntegrator.outputBin o n)).2 ^ 2)).sum,
          0) ∧
      SpectrumIntegrator.integratorModel o fw true vecs nint n
        = (((List.range nint).map (fun j =>
            (vecs j (SpectrumIntegrator.outputBin o n)).1 ^ 2
            + (vecs j (SpectrumIntegrator.outputBin o n)).2 ^ 2)).foldl
              max 0, 0)) := by
  refine ⟨?_, ?_, ?_, ?_, ?_, ?_⟩
  · exact SpectrumIntegrator.binFold_eq_specAccumulate fw false
      ((List.range nint).map
        (fun j => vecs j (SpectrumIntegrator.outputBin o n)))
  · exact SpectrumIntegrator.binFold_eq_specAccumulate fw true
      ((List.range nint).map
        (fun j => vecs j (SpectrumIntegrator.outputBin o n)))
  · have h := SpectrumIntegrator.binFold_exp_avg fw
      ((List.range nint).map
        (fun j => vecs j (SpectrumIntegrator.outputBin o n))) (0, 0)
    rw [List.map_map] at h
    exact h
  · obtain ⟨hb1, hb2⟩ := SpectrumIntegrator.binFold_avg_le fw hfw
      ((List.range nint).map
        (fun j => vecs j (SpectrumIntegrator.outputBin o n)))
      (0, 0) le_rfl
    refine ⟨hb1, ?_⟩
    have hlen : ((((List.range nint).map
        (fun j => vecs j (SpectrumIntegrator.outputBin o n))).length
          : ℕ) : ℤ) = (nint : ℤ) := by
      simp
    rw [hlen] at hb2
    have hnn : ((nint : ℕ) : ℤ) ≤ (2 : ℤ) ^ nw := by
      exact_mod_cast hnw
    have hmul : (nint : ℤ) * 2 ^ (2 * fw - 1)
        ≤ 2 ^ nw * 2 ^ (2 * fw - 1) :=
      mul_le_mul_of_nonneg_right hnn (by positivity)
    have hpadd : (2 : ℤ) ^ nw * 2 ^ (2 * fw - 1)
        = 2 ^ (nw + (2 * fw - 1)) := (pow_add 2 nw (2 * fw - 1)).symm
    have hlt : (2 : ℤ) ^ (nw + (2 * fw - 1)) < 2 ^ (2 * fw + 1 + nw) :=
      pow_lt_pow_right₀ (by norm_num) (by omega)
    have hzero : (((0 : ℤ), (0 : ℕ)).1 : ℤ) = 0 := rfl
    rw [hzero, zero_add] at hb2
    exact lt_of_le_of_lt (hb2.trans (hmul.trans hpadd.le)) hlt
  · obtain ⟨hp1, hp2⟩ := SpectrumIntegrator.binFold_peak_le fw hfw
      ((List.range nint).map
        (fun j => vecs j (SpectrumIntegrator.outputBin o n)))
      (0, 0) le_rfl (by norm_num)
    exact ⟨hp1, lt_of_le_of_lt hp2
      (pow_lt_pow_right₀ (by norm_num) (by omega))⟩
  · intro hbound
    have hmem : ∀ x ∈ (List.range nint).map
        (fun j => vecs j (SpectrumIntegrator.outputBin o n)),
        -(2 ^ (fw - 1)) ≤ x.1 ∧ x.1 < 2 ^ (fw - 1) ∧
        -(2 ^ (fw - 1)) ≤ x.2 ∧ x.2 < 2 ^ (fw - 1) := by
      intro x hx
      rw [List.mem_map] at hx
      obtain ⟨j, hj, rfl⟩ := hx
      obtain ⟨h1, h2, h3, h4⟩ := hbound j (List.mem_range.mp hj)
      exact ⟨h1, h2, h3, h4⟩
    constructor
    · unfold SpectrumIntegrator.integratorModel
        SpectrumIntegrator.binFold
      rw [SpectrumIntegrator.binFold_avg fw hfw _ 0 hmem]
      rw [List.map_map, zero_add]
      rfl
    · unfold SpectrumIntegrator.integratorModel
        SpectrumIntegrator.binFold
      rw [SpectrumIntegrator.binFold_peak fw hfw _ 0 hmem]
      rw [List.map_map]
      rfl

/-- Concrete two-vector input exercising the block-float path: the
first sample (1, 1) fits the 3-bit mantissa with exponent 0, the
second (9, 2) needs exponent 2, so the second step equalises the
stored exponent 0 up to 2, shifting the stored power down by 4 bit
positions. -/
def c1vecs : ℕ → ℕ → ℤ × ℤ :=
  fun j _ => if j = 0 then (1, 1) else (9, 2)

theorem c1_spectrum_integrator_witness :
    ((1 : ℕ) ≤ 3 ∧ (1 : ℕ) ≤ 2 ∧ (2 : ℕ) ≤ 2 ^ 1) ∧
    SpectrumIntegrator.integratorModel 1 3 false c1vecs 2 0
      = SpectrumIntegrator.specAccumulate false
          (((List.range 2).map
            (fun j => c1vecs j (SpectrumIntegrator.outputBin 1 0))).map
            (fun x => SpectrumIntegrator.toFpModel 3 x.1 x.2)) ∧
    SpectrumIntegrator.integratorModel 1 3 true c1vecs 2 0
      = SpectrumIntegrator.specAccumulate true
          (((List.range 2).map
            (fun j => c1vecs j (SpectrumIntegrator.outputBin 1 0))).map
            (fun x => SpectrumIntegrator.toFpModel 3 x.1 x.2)) ∧
    SpectrumIntegrator.integratorModel 1 3 false c1vecs 2 0 = (4, 2) ∧
    SpectrumIntegrator.integratorModel 1 3 true c1vecs 2 0 = (4, 2) ∧
    (SpectrumIntegrator.integratorModel 1 3 false c1vecs 2 0).2 = 2 ∧
    (0 ≤ (SpectrumIntegrator.integratorModel 1 3 false c1vecs 2 0).1
      ∧ (SpectrumIntegrator.integratorModel 1 3 false c1vecs 2 0).1
        < 2 ^ (2 * 3 + 1 + 1)) := by
  have h := c1_spectrum_integrator 1 3 1 2 0 c1vecs (by norm_num)
    (by norm_num) (by norm_num)
  have hsize9 : Nat.size 9 = 4 :=
    le_antisymm (Nat.size_le.mpr (by norm_num))
      (Nat.lt_size.mpr (by norm_num))
  have hsize2 : Nat.size 2 = 2 :=
    le_antisymm (Nat.size_le.mpr (by norm_num))
      (Nat.lt_size.mpr (by norm_num))
  have hc1 : SpectrumIntegrator.calcLen 1 = 2 := by
    unfold SpectrumIntegrator.calcLen
    rw [if_pos (by norm_num), show ((1 : ℤ)).toNat = 1 from rfl,
      Nat.size_one]
  have hc9 : SpectrumIntegrator.calcLen 9 = 5 := by
    unfold SpectrumIntegrator.calcLen
    rw [if_pos (by norm_num), show ((9 : ℤ)).toNat = 9 from rfl,
      hsize9]
  have hc2 : SpectrumIntegrator.calcLen 2 = 3 := by
    unfold SpectrumIntegrator.calcLen
    rw [if_pos (by norm_num), show ((2 : ℤ)).toNat = 2 from rfl,
      hsize2]
  have e1 : SpectrumIntegrator.toFpModel 3 1 1 = (1, 1, 0) := by
    unfold SpectrumIntegrator.toFpModel SpectrumIntegrator.toFpExp
    rw [hc1]
    norm_num [ashr]
  have e2 : SpectrumIntegrator.toFpModel 3 9 2 = (2, 0, 2) := by
    unfold SpectrumIntegrator.toFpModel SpectrumIntegrator.toFpExp
    rw [hc9, hc2]
    norm_num [ashr]
  have s1 : SpectrumIntegrator.binStep 3 false (0, 0) (1, 1)
      = (2, 0) := by
    rw [SpectrumIntegrator.binStep_false_eq_spec]
    show SpectrumIntegrator.specAvgStep (0, 0)
      (SpectrumIntegrator.toFpModel 3 1 1) = (2, 0)
    rw [e1]
    norm_num [SpectrumIntegrator.specAvgStep, ashr]
  have s2 : SpectrumIntegrator.binStep 3 false (2, 0) (9, 2)
      = (4, 2) := by
    rw [SpectrumIntegrator.binStep_false_eq_spec]
    show SpectrumIntegrator.specAvgStep (2, 0)
      (SpectrumIntegrator.toFpModel 3 9 2) = (4, 2)
    rw [e2]
    norm_num [SpectrumIntegrator.specAvgStep, ashr]
  have p1 : SpectrumIntegrator.binStep 3 true (0, 0) (1, 1)
      = (2, 0) := by
    rw [SpectrumIntegrator.binStep_true_eq_spec]
    show SpectrumIntegrator.specPeakStep (0, 0)
      (SpectrumIntegrator.toFpModel 3 1 1) = (2, 0)
    rw [e1]
    norm_num [SpectrumIntegrator.specPeakStep, ashr]
  have p2 : SpectrumIntegrator.binStep 3 true (2, 0) (9, 2)
      = (4, 2) := by
    rw [SpectrumIntegrator.binStep_true_eq_spec]
    show SpectrumIntegrator.specPeakStep (2, 0)
      (SpectrumIntegrator.toFpModel 3 9 2) = (4, 2)
    rw [e2]
    norm_num [SpectrumIntegrator.specPeakStep, ashr]
  have hlist : (List.range 2).map
      (fun j => c1vecs j (SpectrumIntegrator.outputBin 1 0))
      = [(1, 1), (9, 2)] := by decide
  have havg : SpectrumIntegrator.integratorModel 1 3 false c1vecs 2 0
      = (4, 2) := by
    unfold SpectrumIntegrator.integratorModel SpectrumIntegrator.binFold
    rw [hlist, List.foldl_cons, s1, List.foldl_cons, s2,
      List.foldl_nil]
  have hpeak : SpectrumIntegrator.integratorModel 1 3 true c1vecs 2 0
      = (4, 2) := by
    unfold SpectrumIntegrator.integratorModel SpectrumIntegrator.binFold
    rw [hlist, List.foldl_cons, p1, List.foldl_cons, p2,
      List.foldl_nil]
  refine ⟨⟨by norm_num, by norm_num, by norm_num⟩, h.1, h.2.1, havg,
    hpeak, ?_, h.2.2.2.1⟩
  rw [havg]

namespace IntegratorCtl

/-- Control-path registers of `SpectrumIntegrator.elaborate`
(spectrum_integrator.py).  `pp_d0 .. pp_d6` are the seven bits of
`pingpong_delay` (`processing_delay = mem_delay + common_exp.delay +
cpwr.delay = 2 + 2 + 3 = 7`); `nfs_d0, nfs_d1` are the two bits of
`not_first_sum_delay`. -/
structure State where
  read_counter : ℕ
  write_counter : ℕ
  sum_counter : ℕ
  not_first_sum : Bool
  nfs_d0 : Bool
  nfs_d1 : Bool
  pingpong : Bool
  pp_d0 : Bool
  pp_d1 : Bool
  pp_d2 : Bool
  pp_d3 : Bool
  pp_d4 : Bool
  pp_d5 : Bool
  pp_d6 : Bool
  pingpong_q : Bool
  do_abort : Bool

/-- Inputs of the control path during one clock cycle.  `writeback`
stands for the datapath condition `~peak_detect | cpwr.is_greater` that
gates the BRAM write enables. -/
structure Inp where
  clken : Bool
  input_last : Bool
  abort : Bool
  rden : Bool
  writeback : Bool
  nint : ℕ

/-- Reset value of `write_counter`:
`(read_counter_rst - processing_delay) % 2**order_log2` with
`read_counter_rst = 0` and `processing_delay = 7`. -/
def wrst (o : ℕ) : ℕ := (2 ^ o - 7 % 2 ^ o) % 2 ^ o

/-- The "new sum starts" condition of the source:
`input_last & ((sum_counter == 1) | (sum_counter == 0) | do_abort)`
inside the `clken` block. -/
def complCond (s : State) (i : Inp) : Bool :=
  i.clken && i.input_last &&
    (decide (s.sum_counter = 1) || decide (s.sum_counter = 0) || s.do_abort)

/-- The register updates performed when `clken` is high. -/
def stepEnabled (nw o : ℕ) (s : State) (i : Inp) : State :=
  let compl0 := i.input_last &&
    (decide (s.sum_counter = 1) || decide (s.sum_counter = 0) || s.do_abort)
  { read_counter := if i.input_last then 0 else (s.read_counter + 1) % 2 ^ o
    write_counter := if i.input_last then wrst o
      else (s.write_counter + 1) % 2 ^ o
    sum_counter := if i.input_last then
        (if compl0 then i.nint % 2 ^ nw
          else (s.sum_counter + (2 ^ nw - 1)) % 2 ^ nw)
      else s.sum_counter
    not_first_sum := if i.input_last then (if compl0 then false else true)
      else s.not_first_sum
    nfs_d0 := s.not_first_sum
    nfs_d1 := s.nfs_d0
    pingpong := if compl0 then !s.pingpong else s.pingpong
    pp_d0 := s.pingpong
    pp_d1 := s.pp_d0
    pp_d2 := s.pp_d1
    pp_d3 := s.pp_d2
    pp_d4 := s.pp_d3
    pp_d5 := s.pp_d4
    pp_d6 := s.pp_d5
    pingpong_q := s.pingpong_q
    do_abort := if compl0 then false else s.do_abort }

/-- One rising clock edge: the `clken`-gated block, then the `abort`
latch (which overrides the clearing of `do_abort`), then the ungated
`pingpong_q` register. -/
def step (nw o : ℕ) (s : State) (i : Inp) : State :=
  let s1 := if i.clken then stepEnabled nw o s i else s
  { s1 with
    do_abort := if i.abort then true else s1.do_abort
    pingpong_q := s.pp_d6 }

/-- Reset state of the control path. -/
def reset (o : ℕ) : State :=
  { read_counter := 0
    write_counter := wrst o
    sum_counter := 0
    not_first_sum := false
    nfs_d0 := false
    nfs_d1 := false
    pingpong := false
    pp_d0 := false
    pp_d1 := false
    pp_d2 := false
    pp_d3 := false
    pp_d4 := false
    pp_d5 := false
    pp_d6 := false
    pingpong_q := false
    do_abort := false }

/-- State after `t` clock edges from reset. -/
def run (nw o : ℕ) (env : ℕ → Inp) : ℕ → State
  | 0 => reset o
  | t + 1 => step nw o (run nw o env t) (env t)

/-- The `done` output: `pingpong_delay[-1] ^ pingpong_q`. -/
def done (s : State) : Bool := s.pp_d6 != s.pingpong_q

/-- The exposed read port is granted port 0 (and hence bin memory 0):
`pingpong & pingpong_delay[mem_delay-1]` routes `rden` to
`rdports[0]`, whose address is `self.rdaddr` when `pingpong` is set. -/
def readerReadsMem0 (s : State) (i : Inp) : Bool :=
  s.pingpong && s.pp_d1 && i.rden

/-- The exposed read port is granted port 1 (bin memory 1):
`rdports[1].en` is `rden` when `~(pingpong | pingpong_delay[1])`. -/
def readerReadsMem1 (s : State) (i : Inp) : Bool :=
  !(s.pingpong || s.pp_d1) && i.rden

/-- `wrports[0].en = ~pingpong_delay[-1] & clken & writeback`. -/
def writesMem0 (s : State) (i : Inp) : Bool :=
  !s.pp_d6 && i.clken && i.writeback

/-- `wrports[1].en = pingpong_delay[-1] & clken & writeback`. -/
def writesMem1 (s : State) (i : Inp) : Bool :=
  s.pp_d6 && i.clken && i.writeback

end IntegratorCtl

/-- C4 counterexample: order 8 FFT (`order_log2 = 3`), `nint = 1`,
`clken` always high, average mode (`writeback` always high), reader
`rden` asserted only at cycle 28.  `done` pulses exactly at cycles 23
and 31, so cycle 28 lies strictly between two consecutive `done`
pulses; yet at cycle 28 the exposed read port is granted bin memory 0
while the integrator is still writing bin memory 0 (the trailing
pipeline writes of the window after the pingpong flip at the end of
cycle 23): reading only between `done` pulses does not avoid the buffer
being written. -/
theorem c4_counterexample_window_read_hazard :
    IntegratorCtl.done (IntegratorCtl.run 10 3
      (fun t => ⟨true, decide (t % 8 = 7), false, decide (t = 28), true, 1⟩)
      23) = true ∧
    (List.range 7).all (fun k => !IntegratorCtl.done (IntegratorCtl.run 10 3
      (fun t => ⟨true, decide (t % 8 = 7), false, decide (t = 28), true, 1⟩)
      (24 + k))) = true ∧
    IntegratorCtl.done (IntegratorCtl.run 10 3
      (fun t => ⟨true, decide (t % 8 = 7), false, decide (t = 28), true, 1⟩)
      31) = true ∧
    IntegratorCtl.readerReadsMem0 (IntegratorCtl.run 10 3
      (fun t => ⟨true, decide (t % 8 = 7), false, decide (t = 28), true, 1⟩)
      28) ⟨true, false, false, true, true, 1⟩ = true ∧
    IntegratorCtl.writesMem0 (IntegratorCtl.run 10 3
      (fun t => ⟨true, decide (t % 8 = 7), false, decide (t = 28), true, 1⟩)
      28) ⟨true, false, false, true, true, 1⟩ = true := by
  refine ⟨?_, ?_, ?_, ?_, ?_⟩ <;> decide

/-- C4 (amended): with `clken` held high, (a) `done` is pulsed for
exactly one cycle per completed integration, eight cycles after the
completing `input_last` (`processing_delay = 7` plus the `pingpong_q`
register); (b) the pingpong bit flips exactly at the completing cycles,
so flips and `done` pulses are in bijection with a fixed lag of eight
cycles; (c) a reader is safe only outside the processing-delay window
that follows a flip: whenever the pingpong delay line agrees with
`pingpong` (`pingpong_delay[1] = pingpong_delay[6] = pingpong`), the
read port and the write port target different bin memories.  (The
original claim — that reading anywhere between `done` pulses is safe —
fails inside the window, see the counterexample.) -/
theorem c4_done_pingpong_amended (nw o : ℕ) (env : ℕ → IntegratorCtl.Inp)
    (hclk : ∀ u, (env u).clken = true) (t : ℕ) :
    IntegratorCtl.done (IntegratorCtl.run nw o env (t + 8))
      = IntegratorCtl.complCond (IntegratorCtl.run nw o env t) (env t) ∧
    (((IntegratorCtl.run nw o env (t + 1)).pingpong
        ≠ (IntegratorCtl.run nw o env t).pingpong)
      ↔ IntegratorCtl.complCond (IntegratorCtl.run nw o env t) (env t)
        = true) ∧
    (∀ (s : IntegratorCtl.State) (i : IntegratorCtl.Inp),
      s.pp_d1 = s.pingpong → s.pp_d6 = s.pingpong →
      ¬(IntegratorCtl.readerReadsMem0 s i = true ∧
        IntegratorCtl.writesMem0 s i = true) ∧
      ¬(IntegratorCtl.readerReadsMem1 s i = true ∧
        IntegratorCtl.writesMem1 s i = true)) := by
  have hppd0 : ∀ m, (IntegratorCtl.run nw o env (m + 1)).pp_d0
      = (IntegratorCtl.run nw o env m).pingpong := by
    intro m
    show (IntegratorCtl.step nw o _ (env m)).pp_d0 = _
    simp [IntegratorCtl.step, IntegratorCtl.stepEnabled, hclk m]
  have hppd1 : ∀ m, (IntegratorCtl.run nw o env (m + 1)).pp_d1
      = (IntegratorCtl.run nw o env m).pp_d0 := by
    intro m
    show (IntegratorCtl.step nw o _ (env m)).pp_d1 = _
    simp [IntegratorCtl.step, IntegratorCtl.stepEnabled, hclk m]
  have hppd2 : ∀ m, (IntegratorCtl.run nw o env (m + 1)).pp_d2
      = (IntegratorCtl.run nw o env m).pp_d1 := by
    intro m
    show (IntegratorCtl.step nw o _ (env m)).pp_d2 = _
    simp [IntegratorCtl.step, IntegratorCtl.stepEnabled, hclk m]
  have hppd3 : ∀ m, (IntegratorCtl.run nw o env (m + 1)).pp_d3
      = (IntegratorCtl.run nw o env m).pp_d2 := by
    intro m
    show (IntegratorCtl.step nw o _ (env m)).pp_d3 = _
    simp [IntegratorCtl.step, IntegratorCtl.stepEnabled, hclk m]
  have hppd4 : ∀ m, (IntegratorCtl.run nw o env (m + 1)).pp_d4
      = (IntegratorCtl.run nw o env m).pp_d3 := by
    intro m
    show (IntegratorCtl.step nw o _ (env m)).pp_d4 = _
    simp [IntegratorCtl.step, IntegratorCtl.stepEnabled, hclk m]
  have hppd5 : ∀ m, (IntegratorCtl.run nw o env (m + 1)).pp_d5
      = (IntegratorCtl.run nw o env m).pp_d4 := by
    intro m
    show (IntegratorCtl.step nw o _ (env m)).pp_d5 = _
    simp [IntegratorCtl.step, IntegratorCtl.stepEnabled, hclk m]
  have hppd6 : ∀ m, (IntegratorCtl.run nw o env (m + 1)).pp_d6
      = (IntegratorCtl.run nw o env m).pp_d5 := by
    intro m
    show (IntegratorCtl.step nw o _ (env m)).pp_d6 = _
    simp [IntegratorCtl.step, IntegratorCtl.stepEnabled, hclk m]
  have hq : ∀ m, (IntegratorCtl.run nw o env (m + 1)).pingpong_q
      = (IntegratorCtl.run nw o env m).pp_d6 := by
    intro m
    show (IntegratorCtl.step nw o _ (env m)).pingpong_q = _
    simp [IntegratorCtl.step]
  have hpp : ∀ m, (IntegratorCtl.run nw o env (m + 1)).pingpong
      = (if IntegratorCtl.complCond (IntegratorCtl.run nw o env m) (env m)
        then !(IntegratorCtl.run nw o env m).pingpong
        else (IntegratorCtl.run nw o env m).pingpong) := by
    intro m
    show (IntegratorCtl.step nw o _ (env m)).pingpong = _
    simp [IntegratorCtl.step, IntegratorCtl.stepEnabled,
      IntegratorCtl.complCond, hclk m]
  have hchain : ∀ m, (IntegratorCtl.run nw o env (m + 7)).pp_d6
      = (IntegratorCtl.run nw o env m).pingpong := by
    intro m
    rw [show m + 7 = (m + 6) + 1 from rfl, hppd6 (m + 6)]
    rw [show m + 6 = (m + 5) + 1 from rfl, hppd5 (m + 5)]
    rw [show m + 5 = (m + 4) + 1 from rfl, hppd4 (m + 4)]
    rw [show m + 4 = (m + 3) + 1 from rfl, hppd3 (m + 3)]
    rw [show m + 3 = (m + 2) + 1 from rfl, hppd2 (m + 2)]
    rw [show m + 2 = (m + 1) + 1 from rfl, hppd1 (m + 1)]
    exact hppd0 m
  refine ⟨?_, ?_, ?_⟩
  · unfold IntegratorCtl.done
    rw [show t + 8 = (t + 1) + 7 from rfl, hchain (t + 1)]
    rw [show (t + 1) + 7 = (t + 7) + 1 from rfl, hq (t + 7), hchain t]
    rw [hpp t]
    generalize IntegratorCtl.complCond (IntegratorCtl.run nw o env t)
      (env t) = c
    generalize (IntegratorCtl.run nw o env t).pingpong = p
    cases c <;> cases p <;> simp
  · rw [hpp t]
    generalize IntegratorCtl.complCond (IntegratorCtl.run nw o env t)
      (env t) = c
    generalize (IntegratorCtl.run nw o env t).pingpong = p
    cases c <;> cases p <;> simp
  · intro s i h1 h6
    unfold IntegratorCtl.readerReadsMem0 IntegratorCtl.readerReadsMem1
      IntegratorCtl.writesMem0 IntegratorCtl.writesMem1
    rw [h1, h6]
    cases s.pingpong <;> simp

theorem c4_done_pingpong_amended_witness :
    (∀ u, ((fun _ : ℕ =>
      (⟨true, decide (u % 8 = 7), false, false, true, 1⟩
        : IntegratorCtl.Inp)) u).clken = true) ∧
    IntegratorCtl.done (IntegratorCtl.run 10 3
      (fun t => ⟨true, decide (t % 8 = 7), false, false, true, 1⟩) 15)
      = true ∧
    IntegratorCtl.complCond (IntegratorCtl.run 10 3
      (fun t => ⟨true, decide (t % 8 = 7), false, false, true, 1⟩) 7)
      ⟨true, true, false, false, true, 1⟩ = true := by
  have hclk : ∀ u, ((fun t : ℕ =>
      (⟨true, decide (t % 8 = 7), false, false, true, 1⟩
        : IntegratorCtl.Inp)) u).clken = true := fun _ => rfl
  have h := c4_done_pingpong_amended 10 3
    (fun t => ⟨true, decide (t % 8 = 7), false, false, true, 1⟩) hclk 7
  refine ⟨fun _ => rfl, ?_, by decide⟩
  rw [show (15 : ℕ) = 7 + 8 from rfl, h.1]
  decide

namespace IntegratorCtl

/-- All control-path registers except `sum_counter` (the observable
behaviour of the control path). -/
def obs (s : State) :
    ℕ × ℕ × Bool × Bool × Bool × Bool × Bool × Bool × Bool × Bool ×
      Bool × Bool × Bool × Bool × Bool :=
  (s.read_counter, s.write_counter, s.not_first_sum, s.nfs_d0, s.nfs_d1,
    s.pingpong, s.pp_d0, s.pp_d1, s.pp_d2, s.pp_d3, s.pp_d4, s.pp_d5,
    s.pp_d6, s.pingpong_q, s.do_abort)

/-- A step preserves equality of the observable registers whenever the
two "new sum starts" conditions agree, regardless of the `nint`
values. -/
theorem step_obs_congr (nw o : ℕ) (sA sB : State) (i : Inp) (a b : ℕ)
    (hobs : obs sA = obs sB)
    (hcond : (decide (sA.sum_counter = 1) || decide (sA.sum_counter = 0)
        || sA.do_abort)
      = (decide (sB.sum_counter = 1) || decide (sB.sum_counter = 0)
        || sB.do_abort)) :
    obs (step nw o sA { i with nint := a })
      = obs (step nw o sB { i with nint := b }) := by
  obtain ⟨rcA, wcA, scA, nfA, dA0, dA1, ppA, pA0, pA1, pA2, pA3, pA4,
    pA5, pA6, qA, abA⟩ := sA
  obtain ⟨rcB, wcB, scB, nfB, dB0, dB1, ppB, pB0, pB1, pB2, pB3, pB4,
    pB5, pB6, qB, abB⟩ := sB
  simp only [obs, Prod.mk.injEq] at hobs
  obtain ⟨h1, h2, h3, h4, h5, h6, h7, h8, h9, h10, h11, h12, h13, h14,
    h15⟩ := hobs
  subst h1 h2 h3 h4 h5 h6 h7 h8 h9 h10 h11 h12 h13 h14 h15
  simp only at hcond
  cases hck : i.clken with
  | false => simp [obs, step, stepEnabled, hck]
  | true =>
    simp only [obs, step, stepEnabled, hck, if_true, Prod.mk.injEq]
    rw [hcond]
    simp

end IntegratorCtl

/-- C7: with the number of integrations set to 0 and set to 1 (all
other inputs equal), the `SpectrumIntegrator` control path behaves
identically from reset: every register except the internal
`sum_counter` is equal at every cycle, the `done` outputs coincide, and
in both cases the "new sum starts" condition reduces to
`clken & input_last`, i.e. an integration completes after every FFT
vector. -/
theorem c7_nint_zero_eq_one (nw o : ℕ) (hnw : 1 ≤ nw)
    (env : ℕ → IntegratorCtl.Inp) (t : ℕ) :
    IntegratorCtl.obs (IntegratorCtl.run nw o
        (fun u => { env u with nint := 0 }) t)
      = IntegratorCtl.obs (IntegratorCtl.run nw o
        (fun u => { env u with nint := 1 }) t) ∧
    IntegratorCtl.done (IntegratorCtl.run nw o
        (fun u => { env u with nint := 0 }) t)
      = IntegratorCtl.done (IntegratorCtl.run nw o
        (fun u => { env u with nint := 1 }) t) ∧
    IntegratorCtl.complCond (IntegratorCtl.run nw o
        (fun u => { env u with nint := 0 }) t)
        { env t with nint := 0 }
      = ((env t).clken && (env t).input_last) ∧
    IntegratorCtl.complCond (IntegratorCtl.run nw o
        (fun u => { env u with nint := 1 }) t)
        { env t with nint := 1 }
      = ((env t).clken && (env t).input_last) := by
  have h2nw : 1 < 2 ^ nw := by
    calc 1 < 2 ^ 1 := by norm_num
      _ ≤ 2 ^ nw := Nat.pow_le_pow_right (by norm_num) hnw
  have main : ∀ u,
      IntegratorCtl.obs (IntegratorCtl.run nw o
        (fun v => { env v with nint := 0 }) u)
      = IntegratorCtl.obs (IntegratorCtl.run nw o
        (fun v => { env v with nint := 1 }) u) ∧
      (IntegratorCtl.run nw o (fun v => { env v with nint := 0 })
        u).sum_counter = 0 ∧
      (IntegratorCtl.run nw o (fun v => { env v with nint := 1 })
        u).sum_counter ≤ 1 := by
    intro u
    induction u with
    | zero =>
      refine ⟨rfl, rfl, ?_⟩
      show (IntegratorCtl.reset o).sum_counter ≤ 1
      norm_num [IntegratorCtl.reset]
    | succ u ih =>
      obtain ⟨hobs, hsA, hsB⟩ := ih
      have hcond : (decide ((IntegratorCtl.run nw o
            (fun v => { env v with nint := 0 }) u).sum_counter = 1)
          || decide ((IntegratorCtl.run nw o
            (fun v => { env v with nint := 0 }) u).sum_counter = 0)
          || (IntegratorCtl.run nw o
            (fun v => { env v with nint := 0 }) u).do_abort)
          = (decide ((IntegratorCtl.run nw o
            (fun v => { env v with nint := 1 }) u).sum_counter = 1)
          || decide ((IntegratorCtl.run nw o
            (fun v => { env v with nint := 1 }) u).sum_counter = 0)
          || (IntegratorCtl.run nw o
            (fun v => { env v with nint := 1 }) u).do_abort) := by
        rw [hsA]
        rcases Nat.le_one_iff_eq_zero_or_eq_one.mp hsB with h | h <;>
          rw [h] <;> simp
      refine ⟨?_, ?_, ?_⟩
      · exact IntegratorCtl.step_obs_congr nw o _ _ (env u) 0 1 hobs hcond
      · show (IntegratorCtl.step nw o _ _).sum_counter = 0
        simp only [IntegratorCtl.step, IntegratorCtl.stepEnabled]
        rcases hck : (env u).clken with _ | _
        · simpa [hck] using hsA
        · rcases hlast : (env u).input_last with _ | _
          · simpa [hck, hlast] using hsA
          · simp [hck, hlast, hsA]
      · show (IntegratorCtl.step nw o _ _).sum_counter ≤ 1
        simp only [IntegratorCtl.step, IntegratorCtl.stepEnabled]
        rcases hck : (env u).clken with _ | _
        · simpa [hck] using hsB
        · rcases hlast : (env u).input_last with _ | _
          · simpa [hck, hlast] using hsB
          · rcases Nat.le_one_iff_eq_zero_or_eq_one.mp hsB with h | h <;>
              simp [hck, hlast, h, Nat.mod_eq_of_lt h2nw]
  obtain ⟨hobs, hsA, hsB⟩ := main t
  refine ⟨hobs, ?_, ?_, ?_⟩
  · unfold IntegratorCtl.done
    simp only [IntegratorCtl.obs, Prod.mk.injEq] at hobs
    rw [hobs.2.2.2.2.2.2.2.2.2.2.2.2.1, hobs.2.2.2.2.2.2.2.2.2.2.2.2.2.1]
  · unfold IntegratorCtl.complCond
    rw [hsA]
    simp
  · unfold IntegratorCtl.complCond
    rcases Nat.le_one_iff_eq_zero_or_eq_one.mp hsB with h | h <;>
      rw [h] <;> simp

theorem c7_nint_zero_eq_one_witness :
    (1 ≤ 10) ∧
    IntegratorCtl.obs (IntegratorCtl.run 10 3
      (fun u => { (⟨true, decide (u % 8 = 7), false, false, true, 5⟩
        : IntegratorCtl.Inp) with nint := 0 }) 16)
      = IntegratorCtl.obs (IntegratorCtl.run 10 3
      (fun u => { (⟨true, decide (u % 8 = 7), false, false, true, 5⟩
        : IntegratorCtl.Inp) with nint := 1 }) 16) :=
  ⟨by norm_num,
    (c7_nint_zero_eq_one 10 3 (by norm_num)
      (fun u => ⟨true, decide (u % 8 = 7), false, false, true, 5⟩) 16).1⟩

namespace RegisterMap

/-- Field access classes of register.py. -/
inductive Access where
  | R
  | RW
  | W
  | Wpulse
  | Rsticky
deriving DecidableEq, Repr

/-- A register field: access class and bit width (register.py `Field`;
the name and reset value play no role in the cycle behaviour modelled
here). -/
structure FieldDesc where
  access : Access
  width : ℕ

/-- Assemble a natural number from its low `width` bits. -/
def ofBits (f : ℕ → Bool) : ℕ → ℕ
  | 0 => 0
  | w + 1 => ofBits f w + (if f w then 2 ^ w else 0)

/-- Next state of one field's register at a rising clock edge
(register.py `Register.elaborate`).  `v` is the stored value (the field
register for `RW`/`W`/`Wpulse`, the sticky register for `Rsticky`,
unused for `R`), `inp` the externally driven input (used by `R` and
`Rsticky`), `offset` the field's bit offset inside the register. -/
def fieldNext (acc : Access) (offset width : ℕ) (ren : Bool)
    (wstrobe wdata : ℕ → Bool) (inp v : ℕ) : ℕ :=
  match acc with
  | Access.R => v
  | Access.RW => ofBits
      (fun j => if wstrobe ((offset + j) / 8) then wdata (offset + j)
        else v.testBit j) width
  | Access.W => ofBits
      (fun j => if wstrobe ((offset + j) / 8) then wdata (offset + j)
        else v.testBit j) width
  | Access.Wpulse => ofBits
      (fun j => if wstrobe ((offset + j) / 8) then wdata (offset + j)
        else false) width
  | Access.Rsticky => if ren then inp else v ||| inp

/-- Next state of all fields of a register. -/
def regStep (fields : List FieldDesc) (st : List ℕ) (ren : Bool)
    (wstrobe wdata : ℕ → Bool) (fieldIn : ℕ → ℕ) (offset : ℕ) :
    List ℕ :=
  match fields, st with
  | [], _ => []
  | _ :: _, [] => []
  | f :: fs, v :: vs =>
    fieldNext f.access offset f.width ren wstrobe wdata (fieldIn 0) v
      :: regStep fs vs ren wstrobe wdata (fun j => fieldIn (j + 1))
        (offset + f.width)

/-- Bit `k` of the combinational register read data while `ren` is
high: the bit of the field covering position `k` for `R`, `RW` and
`Rsticky` fields, and 0 for positions of `W` and `Wpulse` fields (they
are not part of the read multiplexer in register.py). -/
def regRdataBit (fields : List FieldDesc) (st : List ℕ)
    (fieldIn : ℕ → ℕ) (offset k : ℕ) : Bool :=
  match fields, st with
  | [], _ => false
  | _ :: _, [] => false
  | f :: fs, v :: vs =>
    if k < offset + f.width then
      if offset ≤ k then
        match f.access with
        | Access.R => (fieldIn 0).testBit (k - offset)
        | Access.RW => v.testBit (k - offset)
        | Access.Rsticky => v.testBit (k - offset)
        | Access.W => false
        | Access.Wpulse => false
      else false
    else regRdataBit fs vs (fun j => fieldIn (j + 1)) (offset + f.width) k

/-- Register read data bit, gated by `ren` (`rdata` is 0 when `ren` is
low). -/
def regRdataBitGated (fields : List FieldDesc) (st : List ℕ)
    (fieldIn : ℕ → ℕ) (ren : Bool) (k : ℕ) : Bool :=
  if ren then regRdataBit fields st fieldIn 0 k else false

/-- A register of a bank: word address and field list. -/
structure RegInst where
  addr : ℕ
  fields : List FieldDesc

/-- Registered state of a `Registers` bank (register.py `Registers`):
the field states of every register plus the registered `rdata`,
`rdone`, `wdone` outputs. -/
structure BankState where
  regs : List (List ℕ)
  rdata : ℕ
  rdone : Bool
  wdone : Bool

/-- Bit `k` of the OR of all register read-data outputs
(`rdata |= reg.rdata` in the source); each register sees
`ren & (address == reg_address)` as its read enable. -/
def bankRdataBit (insts : List RegInst) (sts : List (List ℕ))
    (fieldIns : ℕ → ℕ → ℕ) (address : ℕ) (ren : Bool) (k : ℕ) : Bool :=
  match insts, sts with
  | [], _ => false
  | _ :: _, [] => false
  | r :: rs, st :: sts =>
    regRdataBitGated r.fields st (fieldIns 0)
      (ren && decide (address = r.addr)) k
    || bankRdataBit rs sts (fun i => fieldIns (i + 1)) address ren k

/-- New field states of all registers of the bank: each register sees
its gated read enable and a write strobe that is forced to 0 unless the
address matches (`Mux(reg_enable[j], self.wstrobe, 0)`). -/
def bankRegsStep (insts : List RegInst) (sts : List (List ℕ))
    (fieldIns : ℕ → ℕ → ℕ) (address : ℕ) (ren : Bool)
    (wstrobe wdata : ℕ → Bool) : List (List ℕ) :=
  match insts, sts with
  | [], _ => []
  | _ :: _, [] => []
  | r :: rs, st :: sts =>
    regStep r.fields st (ren && decide (address = r.addr))
      (fun b => decide (address = r.addr) && wstrobe b) wdata
      (fieldIns 0) 0
    :: bankRegsStep rs sts (fun i => fieldIns (i + 1)) address ren
      wstrobe wdata

/-- Any write strobe bit asserted (`self.wstrobe != 0`). -/
def anyStrobe (nstrobes : ℕ) (wstrobe : ℕ → Bool) : Bool :=
  (List.range nstrobes).any wstrobe

/-- One rising clock edge of the whole bank: register the field
updates, the OR-ed read data, and the `rdone` / `wdone` pulses. -/
def bankStep (w : ℕ) (insts : List RegInst) (s : BankState) (ren : Bool)
    (wstrobe wdata : ℕ → Bool) (address : ℕ)
    (fieldIns : ℕ → ℕ → ℕ) : BankState :=
  { regs := bankRegsStep insts s.regs fieldIns address ren wstrobe wdata
    rdata := ofBits (bankRdataBit insts s.regs fieldIns address ren) w
    rdone := ren
    wdone := anyStrobe (w / 8) wstrobe }

theorem ofBits_eq_zero (f : ℕ → Bool) (w : ℕ) (h : ∀ k, f k = false) :
    ofBits f w = 0 := by
  induction w with
  | zero => rfl
  | succ w ih => unfold ofBits; rw [ih, h w]; rfl

end RegisterMap

namespace RegisterMap

theorem bankRdataBit_unmapped (insts : List RegInst) :
    ∀ (sts : List (List ℕ)) (fieldIns : ℕ → ℕ → ℕ) (address : ℕ)
      (ren : Bool) (k : ℕ),
    (∀ r ∈ insts, address ≠ r.addr) →
    bankRdataBit insts sts fieldIns address ren k = false := by
  induction insts with
  | nil => intro sts fieldIns address ren k _; rfl
  | cons r rs ih =>
    intro sts fieldIns address ren k h
    cases sts with
    | nil => rfl
    | cons st sts =>
      show (regRdataBitGated r.fields st (fieldIns 0)
        (ren && decide (address = r.addr)) k || _) = false
      have hd : decide (address = r.addr) = false :=
        decide_eq_false (h r (by simp))
      rw [hd]
      simp only [Bool.and_false, regRdataBitGated, Bool.false_eq_true,
        if_false, Bool.false_or]
      exact ih sts _ address ren k (fun r hr => h r (by simp [hr]))

theorem bankRegsStep_unmapped (insts : List RegInst) :
    ∀ (sts : List (List ℕ)) (fieldIns : ℕ → ℕ → ℕ) (address : ℕ)
      (ren : Bool) (wstrobe wdata : ℕ → Bool),
    (∀ r ∈ insts, address ≠ r.addr) →
    bankRegsStep insts sts fieldIns address ren wstrobe wdata
      = bankRegsStep insts sts fieldIns address ren (fun _ => false)
        wdata := by
  induction insts with
  | nil => intro sts fieldIns address ren wstrobe wdata _; rfl
  | cons r rs ih =>
    intro sts fieldIns address ren wstrobe wdata h
    cases sts with
    | nil => rfl
    | cons st sts =>
      have hd : decide (address = r.addr) = false :=
        decide_eq_false (h r (by simp))
      show regStep r.fields st _ (fun b => decide (address = r.addr)
          && wstrobe b) wdata _ 0 :: _
        = regStep r.fields st _ (fun b => decide (address = r.addr)
          && false) wdata _ 0 :: _
      have hfun : (fun b => decide (address = r.addr) && wstrobe b)
          = (fun b => decide (address = r.addr) && false) := by
        funext b
        rw [hd]
        rfl
      rw [hfun]
      exact congrArg _ (ih sts _ address ren wstrobe wdata
        (fun r hr => h r (by simp [hr])))

end RegisterMap

/-- C9: a bus transaction at an address where no register of the bank
is mapped completes normally but has no effect: the registered read
data becomes 0 (while `rdone` still pulses, following `ren`), the new
state of every register in the bank is the same as if no write strobe
had been asserted at all, and `wdone` still pulses whenever any strobe
bit was asserted. -/
theorem c9_unmapped_access (w : ℕ) (insts : List RegisterMap.RegInst)
    (s : RegisterMap.BankState) (ren : Bool) (wstrobe wdata : ℕ → Bool)
    (address : ℕ) (fieldIns : ℕ → ℕ → ℕ)
    (hunmapped : ∀ r ∈ insts, address ≠ r.addr) :
    (RegisterMap.bankStep w insts s ren wstrobe wdata address
      fieldIns).rdata = 0 ∧
    (RegisterMap.bankStep w insts s ren wstrobe wdata address
      fieldIns).rdone = ren ∧
    (RegisterMap.bankStep w insts s ren wstrobe wdata address
      fieldIns).regs
      = (RegisterMap.bankStep w insts s ren (fun _ => false) wdata
        address fieldIns).regs ∧
    (RegisterMap.bankStep w insts s ren wstrobe wdata address
      fieldIns).wdone = RegisterMap.anyStrobe (w / 8) wstrobe := by
  refine ⟨?_, rfl, ?_, rfl⟩
  · exact RegisterMap.ofBits_eq_zero _ w
      (fun k => RegisterMap.bankRdataBit_unmapped insts s.regs fieldIns
        address ren k hunmapped)
  · exact RegisterMap.bankRegsStep_unmapped insts s.regs fieldIns
      address ren wstrobe wdata hunmapped

theorem c9_unmapped_access_witness :
    (∀ r ∈ [(⟨0, [⟨RegisterMap.Access.RW, 8⟩]⟩ : RegisterMap.RegInst)],
      (5 : ℕ) ≠ r.addr) ∧
    (RegisterMap.bankStep 32
      [⟨0, [⟨RegisterMap.Access.RW, 8⟩]⟩]
      ⟨[[42]], 0, false, false⟩ true (fun b => decide (b = 0))
      (fun _ => true) 5 (fun _ _ => 0)).rdata = 0 ∧
    (RegisterMap.bankStep 32
      [⟨0, [⟨RegisterMap.Access.RW, 8⟩]⟩]
      ⟨[[42]], 0, false, false⟩ true (fun b => decide (b = 0))
      (fun _ => true) 5 (fun _ _ => 0)).regs = [[42]] ∧
    (RegisterMap.bankStep 32
      [⟨0, [⟨RegisterMap.Access.RW, 8⟩]⟩]
      ⟨[[42]], 0, false, false⟩ true (fun b => decide (b = 0))
      (fun _ => true) 5 (fun _ _ => 0)).wdone = true := by
  have hun : ∀ r ∈ [(⟨0, [⟨RegisterMap.Access.RW, 8⟩]⟩
      : RegisterMap.RegInst)], (5 : ℕ) ≠ r.addr := by
    intro r hr
    simp at hr
    rw [hr]
    norm_num
  have h := c9_unmapped_access 32 [⟨0, [⟨RegisterMap.Access.RW, 8⟩]⟩]
    ⟨[[42]], 0, false, false⟩ true (fun b => decide (b = 0))
    (fun _ => true) 5 (fun _ _ => 0) hun
  refine ⟨hun, h.1, ?_, ?_⟩
  · rw [h.2.2.1]
    decide
  · rw [h.2.2.2]
    decide

namespace RegisterMap

/-- Bit offset of field `i` inside a register's field list. -/
def offsetOf : List FieldDesc → ℕ → ℕ
  | _, 0 => 0
  | [], _ + 1 => 0
  | f :: fs, i + 1 => f.width + offsetOf fs i

theorem regRdataBit_wpulse_bit (fields : List FieldDesc) :
    ∀ (i : ℕ) (hi : i < fields.length),
    (fields.get ⟨i, hi⟩).access = Access.Wpulse →
    ∀ (off k : ℕ) (st : List ℕ) (fieldIn : ℕ → ℕ),
    off + offsetOf fields i ≤ k →
    k < off + offsetOf fields i + (fields.get ⟨i, hi⟩).width →
    regRdataBit fields st fieldIn off k = false := by
  induction fields with
  | nil => intro i hi; exact absurd hi (by simp)
  | cons f fs ih =>
    intro i hi hacc off k st fieldIn h1 h2
    cases st with
    | nil => rfl
    | cons v vs =>
      cases i with
      | zero =>
        have hoff : offsetOf (f :: fs) 0 = 0 := rfl
        have hget : (f :: fs).get ⟨0, hi⟩ = f := rfl
        rw [hoff] at h1 h2
        rw [hget] at h2 hacc
        simp only [regRdataBit]
        rw [if_pos (by omega : k < off + f.width),
          if_pos (by omega : off ≤ k), hacc]
      | succ i =>
        have hi' : i < fs.length := by
          simpa using Nat.lt_of_succ_lt_succ (by simpa using hi)
        have hoff : offsetOf (f :: fs) (i + 1)
            = f.width + offsetOf fs i := rfl
        have hget : (f :: fs).get ⟨i + 1, hi⟩ = fs.get ⟨i, hi'⟩ := rfl
        rw [hoff] at h1 h2
        rw [hget] at h2 hacc
        simp only [regRdataBit]
        rw [if_neg (by omega : ¬ k < off + f.width)]
        exact ih i hi' hacc (off + f.width) k vs _ (by omega) (by omega)

end RegisterMap

/-- C8 counterexample: a one-bit `Wpulse` field written with 1 does
hold the value 1 in its state register for exactly one cycle (and
auto-clears on the next edge), but a read during that cycle returns 0
in the field's bit position, not the current state: `Wpulse` fields
are not part of the register read multiplexer. -/
theorem c8_counterexample_wpulse_read :
    RegisterMap.regStep [⟨RegisterMap.Access.Wpulse, 1⟩] [0] false
      (fun b => decide (b = 0)) (fun k => decide (k = 0))
      (fun _ => 0) 0 = [1] ∧
    RegisterMap.regRdataBitGated [⟨RegisterMap.Access.Wpulse, 1⟩] [1]
      (fun _ => 0) true 0 = false ∧
    RegisterMap.regStep [⟨RegisterMap.Access.Wpulse, 1⟩] [1] true
      (fun _ => false) (fun _ => false) (fun _ => 0) 0 = [0] := by
  refine ⟨by decide, by decide, by decide⟩

/-- C8 (amended): reading a register never returns the state of a
`Wpulse` field — every bit position covered by a `Wpulse` field reads
as 0 regardless of the stored state; the `Wpulse` state itself takes
the written data while the byte strobes are asserted and clears to 0
on any edge without strobes (the one-cycle pulse). -/
theorem c8_wpulse_read_amended (fields : List RegisterMap.FieldDesc)
    (i : ℕ) (hi : i < fields.length)
    (hacc : (fields.get ⟨i, hi⟩).access = RegisterMap.Access.Wpulse) :
    (∀ (k : ℕ), RegisterMap.offsetOf fields i ≤ k →
      k < RegisterMap.offsetOf fields i + (fields.get ⟨i, hi⟩).width →
      ∀ (st : List ℕ) (fieldIn : ℕ → ℕ) (ren : Bool),
      RegisterMap.regRdataBitGated fields st fieldIn ren k = false) ∧
    (∀ (wdata : ℕ → Bool) (inp v : ℕ),
      RegisterMap.fieldNext RegisterMap.Access.Wpulse
        (RegisterMap.offsetOf fields i) (fields.get ⟨i, hi⟩).width
        false (fun _ => false) wdata inp v = 0) ∧
    (∀ (wdata : ℕ → Bool) (inp v : ℕ),
      RegisterMap.fieldNext RegisterMap.Access.Wpulse
        (RegisterMap.offsetOf fields i) (fields.get ⟨i, hi⟩).width
        false (fun _ => true) wdata inp v
      = RegisterMap.ofBits
          (fun j => wdata (RegisterMap.offsetOf fields i + j))
          (fields.get ⟨i, hi⟩).width) := by
  refine ⟨?_, ?_, ?_⟩
  · intro k hk1 hk2 st fieldIn ren
    unfold RegisterMap.regRdataBitGated
    cases ren with
    | false => rfl
    | true =>
      simp only [if_true]
      exact RegisterMap.regRdataBit_wpulse_bit fields i hi hacc 0 k st
        fieldIn (by omega) (by omega)
  · intro wdata inp v
    simp only [RegisterMap.fieldNext]
    exact RegisterMap.ofBits_eq_zero _ _ (fun k => by simp)
  · intro wdata inp v
    simp only [RegisterMap.fieldNext]
    congr 1

theorem c8_wpulse_read_amended_witness :
    RegisterMap.regRdataBitGated [⟨RegisterMap.Access.Wpulse, 1⟩] [1]
      (fun _ => 0) true 0 = false ∧
    RegisterMap.fieldNext RegisterMap.Access.Wpulse 0 1 false
      (fun _ => false) (fun _ => true) 0 1 = 0 := by
  have h := c8_wpulse_read_amended [⟨RegisterMap.Access.Wpulse, 1⟩] 0
    (by decide) rfl
  exact ⟨h.1 0 (by decide) (by decide) [1] (fun _ => 0) true,
    h.2.1 (fun _ => true) 0 1⟩

namespace PackFifoTwice

/-- Registered state of packer.py `PackFifoTwice`, together with the
modelled FIFO read port: `fifo_data` is the FIFO's registered data
output (one cycle of read latency, held between reads) and `rdcount`
the number of reads issued so far, indexing the ghost word stream. -/
structure State where
  fifo_data_q : ℕ
  has_one : Bool
  has_two : Bool
  fifo_data : ℕ
  rdcount : ℕ

/-- Per-cycle inputs of the packer. -/
structure Inp where
  enable : Bool
  empty : Bool
  out_ready : Bool

def out_valid (s : State) : Bool := s.has_two

def out_tx (s : State) (i : Inp) : Bool := i.out_ready && s.has_two

def rden (s : State) (i : Inp) : Bool :=
  !i.empty && i.enable && (out_tx s i || !s.has_two)

def out_data (w : ℕ) (s : State) : ℕ :=
  s.fifo_data_q + 2 ^ w * s.fifo_data

/-- One rising clock edge.  The three conditional sync blocks of the
source are applied in program order (a later block overrides an
earlier one for the same signal): the `rden` block, then the `out_tx`
block, then the `~enable` clear. -/
def step (w : ℕ) (W : ℕ → ℕ) (s : State) (i : Inp) : State :=
  { fifo_data_q := if rden s i then s.fifo_data else s.fifo_data_q
    has_one := if !i.enable then false
      else if out_tx s i then rden s i
      else if rden s i then !s.has_one else s.has_one
    has_two := if !i.enable then false
      else if out_tx s i then false
      else if rden s i then s.has_one else s.has_two
    fifo_data := if rden s i then W s.rdcount % 2 ^ w else s.fifo_data
    rdcount := if rden s i then s.rdcount + 1 else s.rdcount }

def reset : State := ⟨0, false, false, 0, 0⟩

def run (w : ℕ) (W : ℕ → ℕ) (env : ℕ → Inp) : ℕ → State
  | 0 => reset
  | n + 1 => step w W (run w W env n) (env n)

/-- Pairing invariant: `has_one` and `has_two` never hold together;
with one word pending the FIFO output register holds the most recent
read; with a full pair the FIFO output register holds the later word
and `fifo_data_q` the earlier word of the two most recent reads. -/
def Inv (w : ℕ) (W : ℕ → ℕ) (s : State) : Prop :=
  ¬(s.has_one = true ∧ s.has_two = true) ∧
  (s.has_one = true → 1 ≤ s.rdcount ∧
    s.fifo_data = W (s.rdcount - 1) % 2 ^ w) ∧
  (s.has_two = true → 2 ≤ s.rdcount ∧
    s.fifo_data = W (s.rdcount - 1) % 2 ^ w ∧
    s.fifo_data_q = W (s.rdcount - 2) % 2 ^ w)

theorem pack_inv_step (w : ℕ) (W : ℕ → ℕ) (s : State) (i : Inp)
    (h : Inv w W s) : Inv w W (step w W s i) := by
  obtain ⟨h12, h1, h2⟩ := h
  cases hen : i.enable with
  | false =>
    have hrd : rden s i = false := by simp [rden, hen]
    exact ⟨by simp [step, hen], by simp [step, hen],
      by simp [step, hen]⟩
  | true =>
    cases hrd : rden s i with
    | false =>
      cases htx : out_tx s i with
      | false =>
        refine ⟨?_, ?_, ?_⟩ <;>
          simp only [step, hen, hrd, htx, Bool.not_true, if_false] <;>
          [exact h12; exact h1; exact h2]
      | true =>
        refine ⟨?_, ?_, ?_⟩ <;>
          simp [step, hen, hrd, htx]
    | true =>
      cases htx : out_tx s i with
      | true =>
        refine ⟨?_, ?_, ?_⟩ <;>
          simp [step, hen, hrd, htx]
      | false =>
        have hh2 : s.has_two = false := by
          by_contra hc
          rw [Bool.not_eq_false] at hc
          rw [rden, htx, hc] at hrd
          simp at hrd
        cases hh1 : s.has_one with
        | false =>
          refine ⟨?_, ?_, ?_⟩ <;>
            simp [step, hen, hrd, htx, hh1, hh2]
        | true =>
          obtain ⟨hp, hf⟩ := h1 hh1
          refine ⟨?_, ?_, ?_⟩ <;>
            simp only [step, hen, hrd, htx, hh1, hh2, Bool.not_true,
              Bool.not_false, if_false, if_true]
          · simp
          · simp
          · intro _
            refine ⟨by omega, ?_, ?_⟩
            · have : s.rdcount + 1 - 1 = s.rdcount := by omega
              rw [this]
            · have : s.rdcount + 1 - 2 = s.rdcount - 1 := by omega
              rw [this, hf]

theorem pack_inv_run (w : ℕ) (W : ℕ → ℕ) (env : ℕ → Inp) (n : ℕ) :
    Inv w W (run w W env n) := by
  induction n with
  | zero => exact ⟨by simp [run, reset], by simp [run, reset],
      by simp [run, reset]⟩
  | succ n ih => exact pack_inv_step w W _ (env n) ih

end PackFifoTwice

/-- C10: whenever `out_valid` is asserted, at least two FIFO reads
have completed and `out_data` holds the two most recently read FIFO
words, the earlier word of the pair in the low `width_in` bits and the
later word in the high bits; `out_valid` rises only on a read that
completes a pair (`rden` with `has_one` set); and deasserting `enable`
suppresses the FIFO read and clears the pairing state on the next
edge, so no stale half-pair word survives a disable. -/
theorem c10_pack_fifo_twice (w : ℕ) (W : ℕ → ℕ)
    (env : ℕ → PackFifoTwice.Inp) (n : ℕ) :
    (PackFifoTwice.out_valid (PackFifoTwice.run w W env n) = true →
      2 ≤ (PackFifoTwice.run w W env n).rdcount ∧
      PackFifoTwice.out_data w (PackFifoTwice.run w W env n)
        = W ((PackFifoTwice.run w W env n).rdcount - 2) % 2 ^ w
          + 2 ^ w
            * (W ((PackFifoTwice.run w W env n).rdcount - 1)
              % 2 ^ w)) ∧
    ((PackFifoTwice.run w W env (n + 1)).has_two = true →
      (PackFifoTwice.run w W env n).has_two = false →
      PackFifoTwice.rden (PackFifoTwice.run w W env n) (env n) = true ∧
      (PackFifoTwice.run w W env n).has_one = true) ∧
    ((env n).enable = false →
      PackFifoTwice.rden (PackFifoTwice.run w W env n) (env n)
        = false ∧
      (PackFifoTwice.run w W env (n + 1)).has_one = false ∧
      (PackFifoTwice.run w W env (n + 1)).has_two = false) := by
  obtain ⟨h12, h1, h2⟩ := PackFifoTwice.pack_inv_run w W env n
  refine ⟨?_, ?_, ?_⟩
  · intro hv
    obtain ⟨hp, hf, hq⟩ := h2 hv
    exact ⟨hp, by rw [PackFifoTwice.out_data, hf, hq]⟩
  · intro hup hdown
    have hup' : (if !(env n).enable then false
        else if PackFifoTwice.out_tx (PackFifoTwice.run w W env n)
          (env n) then false
        else if PackFifoTwice.rden (PackFifoTwice.run w W env n)
          (env n) then (PackFifoTwice.run w W env n).has_one
        else (PackFifoTwice.run w W env n).has_two) = true := hup
    cases hen : (env n).enable with
    | false =>
      rw [hen, if_pos (by simp)] at hup'
      exact absurd hup' (by simp)
    | true =>
      rw [hen, if_neg (by simp)] at hup'
      cases htx : PackFifoTwice.out_tx (PackFifoTwice.run w W env n)
          (env n) with
      | true =>
        rw [htx, if_pos rfl] at hup'
        exact absurd hup' (by simp)
      | false =>
        rw [htx, if_neg (by simp)] at hup'
        cases hrd : PackFifoTwice.rden (PackFifoTwice.run w W env n)
            (env n) with
        | false =>
          rw [hrd, if_neg (by simp), hdown] at hup'
          exact absurd hup' (by simp)
        | true =>
          rw [hrd, if_pos rfl] at hup'
          exact ⟨rfl, hup'⟩
  · intro hen
    have hrd : PackFifoTwice.rden (PackFifoTwice.run w W env n)
        (env n) = false := by
      rw [PackFifoTwice.rden, hen]
      simp
    refine ⟨hrd, ?_, ?_⟩
    · show (PackFifoTwice.step w W (PackFifoTwice.run w W env n)
        (env n)).has_one = false
      simp [PackFifoTwice.step, hen]
    · show (PackFifoTwice.step w W (PackFifoTwice.run w W env n)
        (env n)).has_two = false
      simp [PackFifoTwice.step, hen]

/-- Concrete environment for exercising the packer: enabled for the
first two cycles (two FIFO reads complete), then disabled; the FIFO is
never empty and the stream consumer is never ready. -/
def c10env : ℕ → PackFifoTwice.Inp :=
  fun t => ⟨decide (t < 2), false, false⟩

theorem c10_pack_fifo_twice_witness :
    PackFifoTwice.out_valid
      (PackFifoTwice.run 4 (fun k => k + 1) c10env 2) = true ∧
    2 ≤ (PackFifoTwice.run 4 (fun k => k + 1) c10env 2).rdcount ∧
    PackFifoTwice.out_data 4
      (PackFifoTwice.run 4 (fun k => k + 1) c10env 2) = 33 ∧
    PackFifoTwice.rden (PackFifoTwice.run 4 (fun k => k + 1) c10env 1)
      (c10env 1) = true ∧
    (PackFifoTwice.run 4 (fun k => k + 1) c10env 1).has_one = true ∧
    (c10env 2).enable = false ∧
    PackFifoTwice.rden (PackFifoTwice.run 4 (fun k => k + 1) c10env 2)
      (c10env 2) = false ∧
    (PackFifoTwice.run 4 (fun k => k + 1) c10env 3).has_one = false ∧
    (PackFifoTwice.run 4 (fun k => k + 1) c10env 3).has_two = false := by
  have h2 := c10_pack_fifo_twice 4 (fun k => k + 1) c10env 2
  have h1 := c10_pack_fifo_twice 4 (fun k => k + 1) c10env 1
  have hv : PackFifoTwice.out_valid
      (PackFifoTwice.run 4 (fun k => k + 1) c10env 2) = true := by
    decide
  have hae := h2.1 hv
  have hrise := h1.2.1 (by decide) (by decide)
  have hdis := h2.2.2 (by decide)
  refine ⟨hv, hae.1, ?_, hrise.1, hrise.2, by decide, hdis.1,
    hdis.2.1, hdis.2.2⟩
  rw [hae.2]
  decide

namespace DmaStreamWrite

/-- Static configuration of dma.py `DmaStreamWrite`: byte addresses of
the buffer, `blog` = bytes_per_word_log2 (the data width is
`8 * 2 ^ blog` bits), `awidth` = axi_awidth, `A` the width of
`axi_addr_counter` (wide enough for its declared range), and `r` the
number of trailing zero bits of `end_address >> addr_shift` used by
the `addr_counter_end` comparison. -/
structure Params where
  start_address : ℕ
  end_address : ℕ
  blog : ℕ
  awidth : ℕ
  A : ℕ
  r : ℕ

def addr_shift (p : Params) : ℕ := 4 + p.blog

def addrReset (p : Params) : ℕ := p.start_address / 2 ^ addr_shift p

def endq (p : Params) : ℕ := p.end_address / 2 ^ addr_shift p

/-- Registered state, extended with ghost counters: `nbursts` counts
aw handshakes, `nbeats` counts w handshakes, `ncompl` counts completed
bursts (w handshakes with wlast), `nresp` counts write-response
(`bvalid`) cycles. -/
structure State where
  running : Bool
  one_outstanding_burst : Bool
  two_outstanding_bursts : Bool
  axi_addr_counter : ℕ
  beat_counter : ℕ
  outstanding_b : ℤ
  bready : Bool
  no_outstanding_b_q : Bool
  finished : Bool
  nbursts : ℕ
  nbeats : ℕ
  ncompl : ℕ
  nresp : ℕ

/-- Per-cycle inputs: control pulses and the AXI / stream handshake
inputs. -/
structure Inp where
  start : Bool
  stop : Bool
  awready : Bool
  wready : Bool
  bvalid : Bool
  stream_valid : Bool

def addr_counter_end (p : Params) (s : State) : Bool :=
  decide (s.axi_addr_counter / 2 ^ p.r
    = p.end_address / 2 ^ (addr_shift p + p.r))

def awvalid (p : Params) (s : State) : Bool :=
  s.running && !s.two_outstanding_bursts && !(addr_counter_end p s)

def aw_handshake (p : Params) (s : State) (i : Inp) : Bool :=
  awvalid p s && i.awready

/-- The 4 bits of the `outstanding_b` register (two's complement). -/
def outBits (s : State) : ℕ := (s.outstanding_b % 2 ^ 4).toNat

def no_outstanding_b (s : State) : Bool := (outBits s).testBit 3

def full_outstanding_b (s : State) : Bool :=
  !(outBits s).testBit 3 && (outBits s).testBit 2

def enable_w (s : State) : Bool :=
  (s.one_outstanding_burst || s.two_outstanding_bursts)
    && !(full_outstanding_b s)

def wvalid (s : State) (i : Inp) : Bool := enable_w s && i.stream_valid

def w_handshake (s : State) (i : Inp) : Bool := wvalid s i && i.wready

/-- Top bit of the 5-bit `beat_counter_next = beat_counter + 1`
(`wlast`). -/
def last_beat (s : State) : Bool := (s.beat_counter + 1).testBit 4

def next_address (p : Params) (s : State) : ℕ :=
  s.axi_addr_counter * 2 ^ addr_shift p % 2 ^ p.awidth

/-- One rising clock edge of dma.py `DmaStreamWrite`.  The conditional
sync blocks are applied in program order, a later assignment to the
same signal overriding an earlier one (the `start` block overrides
both the address increment and the `stop`/end clear of `running`); the
two inner updates of the outstanding-burst pair have mutually
exclusive guards. -/
def step (p : Params) (s : State) (i : Inp) : State :=
  { running := if i.start then true
      else if i.stop || addr_counter_end p s then false
      else s.running
    one_outstanding_burst :=
      if aw_handshake p s i && !(w_handshake s i && last_beat s) then
        !s.one_outstanding_burst
      else if w_handshake s i && last_beat s && !aw_handshake p s i then
        s.two_outstanding_bursts
      else s.one_outstanding_burst
    two_outstanding_bursts :=
      if aw_handshake p s i && !(w_handshake s i && last_beat s) then
        s.one_outstanding_burst
      else if w_handshake s i && last_beat s && !aw_handshake p s i then
        false
      else s.two_outstanding_bursts
    axi_addr_counter := if i.start then addrReset p
      else if aw_handshake p s i then
        (s.axi_addr_counter + 1) % 2 ^ p.A
      else s.axi_addr_counter
    beat_counter := if w_handshake s i then
        (s.beat_counter + 1) % 2 ^ 4
      else s.beat_counter
    outstanding_b :=
      if last_beat s && w_handshake s i && !i.bvalid then
        wrapSigned 4 (s.outstanding_b + 1)
      else if i.bvalid && !(last_beat s && w_handshake s i) then
        wrapSigned 4 (s.outstanding_b - 1)
      else s.outstanding_b
    bready := true
    no_outstanding_b_q := no_outstanding_b s
    finished := !s.running && !s.one_outstanding_burst
      && !s.two_outstanding_bursts && !s.no_outstanding_b_q
      && no_outstanding_b s
    nbursts := if aw_handshake p s i then s.nbursts + 1 else s.nbursts
    nbeats := if w_handshake s i then s.nbeats + 1 else s.nbeats
    ncompl := if w_handshake s i && last_beat s then s.ncompl + 1
      else s.ncompl
    nresp := if i.bvalid then s.nresp + 1 else s.nresp }

/-- Power-on reset state (ghost counters at 0). -/
def reset (p : Params) : State :=
  ⟨false, false, false, addrReset p, 0, -1, false, true, false,
    0, 0, 0, 0⟩

/-- State right after a `start` pulse has been taken from the idle
reset state: `running` set, the address counter (re)loaded, `bready`
already registered high. -/
def startState (p : Params) : State :=
  ⟨true, false, false, addrReset p, 0, -1, true, true, false,
    0, 0, 0, 0⟩

/-- A run of the module, beginning at the cycle after the `start`
pulse. -/
def run (p : Params) (env : ℕ → Inp) : ℕ → State
  | 0 => startState p
  | n + 1 => step p (run p env n) (env n)

/-- Taking a `start` pulse (with `bvalid` low) from the idle reset
state yields exactly `startState`, up to the value of `bready` (reset
low, registered high from the first cycle on). -/
theorem step_reset_start (p : Params) (stop aw wr sv : Bool) :
    step p (reset p) ⟨true, stop, aw, wr, false, sv⟩
      = startState p := by
  have haw : aw_handshake p (reset p) ⟨true, stop, aw, wr, false, sv⟩
      = false := rfl
  have hwh : w_handshake (reset p) ⟨true, stop, aw, wr, false, sv⟩
      = false := rfl
  have hlb : last_beat (reset p) = false := by
    rw [last_beat, show (reset p).beat_counter = 0 from rfl]
    rfl
  have hnob : no_outstanding_b (reset p) = true := by
    rw [no_outstanding_b, outBits,
      show (reset p).outstanding_b = -1 from rfl]
    rfl
  simp only [step, haw, hwh, hlb, hnob, Bool.false_and, Bool.and_false,
    Bool.not_false, Bool.and_true, Bool.true_and, Bool.false_eq_true,
    if_true, if_false]
  rfl

end DmaStreamWrite

namespace DmaStreamWrite

/-- Under the invariant range of `outstanding_b`, its sign bit tests
"value = -1" (no outstanding responses) and the `~sign & bit2`
combination tests "value = 4" (maximum outstanding responses). -/
theorem outstanding_b_char (s : State) (h1 : -1 ≤ s.outstanding_b)
    (h2 : s.outstanding_b ≤ 4) :
    no_outstanding_b s = decide (s.outstanding_b = -1) ∧
    full_outstanding_b s = decide (s.outstanding_b = 4) := by
  rw [no_outstanding_b, full_outstanding_b, outBits]
  obtain h | h | h | h | h | h : s.outstanding_b = -1 ∨
      s.outstanding_b = 0 ∨ s.outstanding_b = 1 ∨
      s.outstanding_b = 2 ∨ s.outstanding_b = 3 ∨
      s.outstanding_b = 4 := by omega
  all_goals rw [h]
  all_goals exact ⟨by decide, by decide⟩

/-- Under the beat-counter width bound, the top bit of
`beat_counter + 1` tests "beat_counter = 15". -/
theorem last_beat_char (s : State) (h : s.beat_counter < 16) :
    last_beat s = decide (s.beat_counter = 15) := by
  rw [last_beat]
  rcases Nat.lt_or_ge s.beat_counter 15 with hlt | hge
  · rw [Nat.testBit_eq_false_of_lt
      (by omega : s.beat_counter + 1 < 2 ^ 4)]
    symm
    simp
    omega
  · have h15 : s.beat_counter = 15 := by omega
    rw [h15]
    decide

/-- Inductive invariant of a run: the outstanding-burst pair is a
0/1/2 counter; the beat counter stays in range and is 0 whenever no
burst is outstanding; the ghost counters tie the beat counter, the
burst count and the 16-beat bursts together; the address counter
tracks the number of issued bursts and never passes the end address;
`outstanding_b` is the number of pending write responses minus one and
stays in [-1, 4]. -/
def Inv (p : Params) (s : State) : Prop :=
  ¬(s.one_outstanding_burst = true ∧ s.two_outstanding_bursts = true) ∧
  s.beat_counter < 16 ∧
  (s.one_outstanding_burst = false → s.two_outstanding_bursts = false →
    s.beat_counter = 0) ∧
  s.nbeats = 16 * s.ncompl + s.beat_counter ∧
  s.nbursts = s.ncompl
    + (if s.one_outstanding_burst then 1 else 0)
    + 2 * (if s.two_outstanding_bursts then 1 else 0) ∧
  s.axi_addr_counter = addrReset p + s.nbursts ∧
  s.axi_addr_counter ≤ endq p ∧
  s.outstanding_b = (s.ncompl : ℤ) - s.nresp - 1 ∧
  s.outstanding_b ≤ 4 ∧
  s.nresp ≤ s.ncompl

theorem inv_startState (p : Params) (hse : addrReset p ≤ endq p) :
    Inv p (startState p) := by
  refine ⟨by simp [startState], by norm_num [startState],
    fun _ _ => rfl, rfl, rfl, by simp [startState], ?_, by
      norm_num [startState], by norm_num [startState],
    le_refl _⟩
  simpa [startState] using hse

end DmaStreamWrite

namespace DmaStreamWrite

set_option maxHeartbeats 1600000 in
theorem dma_inv_step (p : Params) (s : State) (i : Inp)
    (hA : endq p < 2 ^ p.A)
    (hstart : i.start = false)
    (hbv : i.bvalid = true → s.nresp < s.ncompl)
    (h : Inv p s) : Inv p (step p s i) := by
  obtain ⟨h1, h2, h3, h4, h5, h6, h7, h8, h9, h10⟩ := h
  have hrange1 : -1 ≤ s.outstanding_b := by omega
  obtain ⟨hnob, hfull⟩ := outstanding_b_char s hrange1 h9
  have hlb := last_beat_char s h2
  have hlb_iff : last_beat s = true ↔ s.beat_counter = 15 := by
    rw [hlb]
    exact decide_eq_true_iff
  have hF1 : aw_handshake p s i = true →
      s.axi_addr_counter < endq p
        ∧ s.two_outstanding_bursts = false := by
    intro hh
    rw [aw_handshake, awvalid] at hh
    simp only [Bool.and_eq_true, Bool.not_eq_true'] at hh
    obtain ⟨⟨⟨_, htwo⟩, hend⟩, _⟩ := hh
    refine ⟨?_, htwo⟩
    rw [addr_counter_end] at hend
    have hne : s.axi_addr_counter ≠ endq p := by
      intro heq
      rw [heq, show endq p / 2 ^ p.r
          = p.end_address / 2 ^ (addr_shift p + p.r) from by
        rw [endq, Nat.div_div_eq_div_mul, ← pow_add]] at hend
      simp at hend
    omega
  have hF2 : w_handshake s i = true →
      (s.one_outstanding_burst = true
        ∨ s.two_outstanding_bursts = true)
        ∧ s.outstanding_b ≤ 3 := by
    intro hh
    rw [w_handshake, wvalid, enable_w] at hh
    simp only [Bool.and_eq_true, Bool.or_eq_true,
      Bool.not_eq_true'] at hh
    obtain ⟨⟨⟨h12, hfl⟩, _⟩, _⟩ := hh
    refine ⟨h12, ?_⟩
    rw [hfull] at hfl
    simp only [decide_eq_false_iff_not] at hfl
    omega
  have hw1 : wrapSigned 4 (s.outstanding_b + 1)
      = s.outstanding_b + 1 := by
    refine wrapSigned_eq_of_abs_lt (j := 3) (by norm_num) ?_
    rw [show ((2 : ℤ) ^ 3) = 8 from by norm_num, abs_lt]
    omega
  have hw2 : wrapSigned 4 (s.outstanding_b - 1)
      = s.outstanding_b - 1 := by
    refine wrapSigned_eq_of_abs_lt (j := 3) (by norm_num) ?_
    rw [show ((2 : ℤ) ^ 3) = 8 from by norm_num, abs_lt]
    omega
  have h16 : (2 : ℕ) ^ 4 = 16 := rfl
  simp only [Inv, step, hstart, Bool.false_eq_true, if_false]
  set o1 := s.one_outstanding_burst with ho1
  set o2 := s.two_outstanding_bursts with ho2
  set a := s.axi_addr_counter with ha
  set b := s.beat_counter with hb
  set ob := s.outstanding_b with hob
  set aw := aw_handshake p s i with haw
  set wh := w_handshake s i with hwh
  set wl := last_beat s with hwl
  set bv := i.bvalid with hbvd
  have haddr_step : (if aw = true then (a + 1) % 2 ^ p.A else a)
      = (if aw = true then a + 1 else a) := by
    by_cases hcase : aw = true
    · rw [if_pos hcase, if_pos hcase, Nat.mod_eq_of_lt
        (by have := (hF1 hcase).1; omega)]
    · rw [if_neg hcase, if_neg hcase]
  rw [haddr_step]
  clear_value o1 o2 a b ob aw wh wl bv
  clear ho1 ho2 ha hb hob haw hwh hwl hbvd hnob hfull hlb
  cases o1 <;> cases o2 <;> cases aw <;> cases wh <;> cases wl <;>
    cases bv <;> simp_all <;> omega

end DmaStreamWrite

namespace DmaStreamWrite

theorem dma_inv_run (p : Params) (env : ℕ → Inp)
    (hA : endq p < 2 ^ p.A)
    (hse : addrReset p ≤ endq p)
    (hnostart : ∀ t, (env t).start = false)
    (hbv : ∀ t, (env t).bvalid = true →
      (run p env t).nresp < (run p env t).ncompl)
    (n : ℕ) : Inv p (run p env n) := by
  induction n with
  | zero => exact inv_startState p hse
  | succ n ih =>
    exact dma_inv_step p (run p env n) (env n) hA (hnostart n) (hbv n) ih

/-- The `finished` pulse registered at the end of cycle `t` forces the
quiescence facts of cycle `t`: not running, no outstanding burst,
`outstanding_b` showing no pending response. -/
theorem finished_facts (p : Params) (s : State) (i : Inp)
    (hfin : (step p s i).finished = true) :
    s.running = false ∧ s.one_outstanding_burst = false ∧
    s.two_outstanding_bursts = false ∧ no_outstanding_b s = true := by
  have hfin' : (!s.running && !s.one_outstanding_burst
      && !s.two_outstanding_bursts && !s.no_outstanding_b_q
      && no_outstanding_b s) = true := hfin
  simp only [Bool.and_eq_true, Bool.not_eq_true'] at hfin'
  exact ⟨hfin'.1.1.1.1, hfin'.1.1.1.2, hfin'.1.1.2, hfin'.2⟩

end DmaStreamWrite

/-- C6: for a run of DmaStreamWrite (begun by a start pulse from the
idle state, with no further start; AXI write responses only arriving
for completed bursts), at any cycle in which `finished` is pulsed the
registered AXI write address satisfies next_address - start_address =
nbeats * (width/8 bytes): the total number of bytes transferred by the
w-channel handshakes of the run.  Moreover the beats form exactly 16
per issued burst, and every issued burst has received its write
response. -/
theorem c6_dma_stream_write_length (p : DmaStreamWrite.Params)
    (env : ℕ → DmaStreamWrite.Inp)
    (hA : DmaStreamWrite.endq p < 2 ^ p.A)
    (hse : DmaStreamWrite.addrReset p ≤ DmaStreamWrite.endq p)
    (halign : p.start_address
      = DmaStreamWrite.addrReset p * 2 ^ DmaStreamWrite.addr_shift p)
    (hwid : p.end_address < 2 ^ p.awidth)
    (hnostart : ∀ u, (env u).start = false)
    (hbv : ∀ u, (env u).bvalid = true →
      (DmaStreamWrite.run p env u).nresp
        < (DmaStreamWrite.run p env u).ncompl)
    (t : ℕ)
    (hfin : (DmaStreamWrite.run p env (t + 1)).finished = true) :
    DmaStreamWrite.next_address p (DmaStreamWrite.run p env (t + 1))
      = p.start_address
        + (DmaStreamWrite.run p env (t + 1)).nbeats * 2 ^ p.blog ∧
    (DmaStreamWrite.run p env (t + 1)).nbeats
      = 16 * (DmaStreamWrite.run p env (t + 1)).nbursts ∧
    (DmaStreamWrite.run p env (t + 1)).nresp
      = (DmaStreamWrite.run p env (t + 1)).nbursts := by
  have hstep : DmaStreamWrite.run p env (t + 1)
      = DmaStreamWrite.step p (DmaStreamWrite.run p env t) (env t) :=
    rfl
  obtain ⟨h1, h2, h3, h4, h5, h6, h7, h8, h9, h10⟩ :=
    DmaStreamWrite.dma_inv_run p env hA hse hnostart hbv t
  obtain ⟨hrun, hone, htwo, hnob⟩ :=
    DmaStreamWrite.finished_facts p (DmaStreamWrite.run p env t)
      (env t) (by rw [← hstep]; exact hfin)
  have hrange1 : -1 ≤ (DmaStreamWrite.run p env t).outstanding_b := by
    omega
  obtain ⟨hnb_char, -⟩ := DmaStreamWrite.outstanding_b_char
    (DmaStreamWrite.run p env t) hrange1 h9
  rw [hnb_char] at hnob
  have hout : (DmaStreamWrite.run p env t).outstanding_b = -1 :=
    of_decide_eq_true hnob
  have hcr : (DmaStreamWrite.run p env t).ncompl
      = (DmaStreamWrite.run p env t).nresp := by omega
  have hbeat0 : (DmaStreamWrite.run p env t).beat_counter = 0 :=
    h3 hone htwo
  have hnb : (DmaStreamWrite.run p env t).nbursts
      = (DmaStreamWrite.run p env t).ncompl := by
    rw [h5, hone, htwo]
    simp
  have haw0 : DmaStreamWrite.aw_handshake p
      (DmaStreamWrite.run p env t) (env t) = false := by
    rw [DmaStreamWrite.aw_handshake, DmaStreamWrite.awvalid, hrun]
    simp
  have hwh0 : DmaStreamWrite.w_handshake
      (DmaStreamWrite.run p env t) (env t) = false := by
    rw [DmaStreamWrite.w_handshake, DmaStreamWrite.wvalid,
      DmaStreamWrite.enable_w, hone, htwo]
    simp
  have hbv0 : (env t).bvalid = false := by
    cases hb : (env t).bvalid with
    | false => rfl
    | true => exact absurd (hbv t hb) (by omega)
  have hfa : (DmaStreamWrite.run p env (t + 1)).axi_addr_counter
      = (DmaStreamWrite.run p env t).axi_addr_counter := by
    rw [hstep]
    simp [DmaStreamWrite.step, hnostart t, haw0]
  have hfb : (DmaStreamWrite.run p env (t + 1)).nbeats
      = (DmaStreamWrite.run p env t).nbeats := by
    rw [hstep]
    simp [DmaStreamWrite.step, hwh0]
  have hfn : (DmaStreamWrite.run p env (t + 1)).nbursts
      = (DmaStreamWrite.run p env t).nbursts := by
    rw [hstep]
    simp [DmaStreamWrite.step, haw0]
  have hfr : (DmaStreamWrite.run p env (t + 1)).nresp
      = (DmaStreamWrite.run p env t).nresp := by
    rw [hstep]
    simp [DmaStreamWrite.step, hbv0]
  refine ⟨?_, ?_, ?_⟩
  · rw [DmaStreamWrite.next_address, hfa, hfb]
    have hle : (DmaStreamWrite.run p env t).axi_addr_counter
        * 2 ^ DmaStreamWrite.addr_shift p < 2 ^ p.awidth := by
      have hle1 : (DmaStreamWrite.run p env t).axi_addr_counter
          * 2 ^ DmaStreamWrite.addr_shift p
          ≤ DmaStreamWrite.endq p
            * 2 ^ DmaStreamWrite.addr_shift p :=
        Nat.mul_le_mul_right _ h7
      have hle2 : DmaStreamWrite.endq p
          * 2 ^ DmaStreamWrite.addr_shift p ≤ p.end_address := by
        rw [DmaStreamWrite.endq]
        exact Nat.div_mul_le_self _ _
      omega
    rw [Nat.mod_eq_of_lt hle, h6, halign]
    have hpow : (2 : ℕ) ^ DmaStreamWrite.addr_shift p
        = 16 * 2 ^ p.blog := by
      rw [DmaStreamWrite.addr_shift, pow_add]
      norm_num
    rw [hpow]
    have hbeats : (DmaStreamWrite.run p env t).nbeats
        = 16 * (DmaStreamWrite.run p env t).nbursts := by omega
    rw [hbeats]
    ring
  · rw [hfb, hfn]
    omega
  · rw [hfr, hfn]
    omega

/-- Concrete DMA configuration: a 16-byte buffer at address 0, 8-bit
data words (blog = 0), one 16-beat burst. -/
def c6p : DmaStreamWrite.Params := ⟨0, 16, 0, 12, 2, 0⟩

/-- Concrete environment: AXI always ready, stream always valid, a
single write response in cycle 17, no start/stop pulses. -/
def c6env : ℕ → DmaStreamWrite.Inp :=
  fun u => ⟨false, false, true, true, decide (u = 17), true⟩

set_option maxRecDepth 100000 in
theorem c6_dma_stream_write_length_witness :
    (DmaStreamWrite.run c6p c6env 19).finished = true ∧
    DmaStreamWrite.next_address c6p (DmaStreamWrite.run c6p c6env 19)
      = c6p.start_address
        + (DmaStreamWrite.run c6p c6env 19).nbeats * 2 ^ c6p.blog ∧
    (DmaStreamWrite.run c6p c6env 19).nbeats
      = 16 * (DmaStreamWrite.run c6p c6env 19).nbursts ∧
    (DmaStreamWrite.run c6p c6env 19).nresp
      = (DmaStreamWrite.run c6p c6env 19).nbursts ∧
    DmaStreamWrite.next_address c6p (DmaStreamWrite.run c6p c6env 19)
      = 16 ∧
    c6p.start_address = 0 := by
  have hfin : (DmaStreamWrite.run c6p c6env 19).finished = true := by
    decide
  have h := c6_dma_stream_write_length c6p c6env (by decide)
    (by decide) (by decide) (by decide) (fun u => rfl)
    (fun u hu => by
      have h17 : u = 17 := of_decide_eq_true hu
      subst h17
      decide)
    18 hfin
  exact ⟨hfin, h.1, h.2.1, h.2.2, by decide, rfl⟩
